import Mathlib

/-!
Verification of the IPv4 prefix-normalization pipeline of `get_subnets.go`.

The program collects IPv4 CIDR prefixes (from a BGP table filtered by AS
number, or from ready-made CIDR lists), inserts them into a
`go4.org/netipx` IP-set builder and emits the canonical minimal prefix
list of the resulting set.  The development below gives an executable
shallow embedding of that pipeline:

* the Go standard-library parser `net/netip.ParsePrefix` (together with
  `ParseAddr`, `parseIPv4`, `parseIPv6` and `strconv.Atoi`) modelled over
  `List Char`;
* `netipx.RangeOfPrefix` (mask to network address, take the covered
  interval), the range merge performed by `IPSetBuilder.IPSet`, and the
  range-to-CIDR decomposition `appendRangePrefixes` used by
  `IPSet.Prefixes`;
* the two pure pipeline cores `processSubnets` and the line-processing
  part of `downloadReadySubnets`, with `log.Printf` diagnostics modelled
  as an explicit output list of strings;
* the textual output of `writeSubnetsToFile` (`netip.Prefix.String`).

IPv4 addresses are modelled as natural numbers below `2 ^ 32`; a prefix is
a pair `(address, length)`; a range is a closed interval given as a pair
`(start, end)` of naturals.
-/

/-! ## Bit-length helper

`netipx` computes common prefix lengths with `bits.LeadingZeros` of an
xor; over a 32-bit space, `leadingZeros x = 32 - bitlen x`.  `bitlenAux`
is a fuelled binary length so that all definitions evaluate by `decide`.
-/

/-- Fuelled binary bit length: `bitlenAux fuel n` is the number of binary
digits of `n`, provided `n < 2 ^ fuel`. -/
def bitlenAux : Nat → Nat → Nat
  | 0, _ => 0
  | fuel + 1, n => if n = 0 then 0 else bitlenAux fuel (n / 2) + 1

/-- Number of binary digits of `n` (exact for all `n < 2 ^ 64`; the
pipeline only ever applies it to numbers below `2 ^ 32`). -/
def bitlen (n : Nat) : Nat := bitlenAux 64 n

/-! ## The prefix parser (`net/netip`)

Modelled from the Go standard library `net/netip` used at
`get_subnets.go:167` and `get_subnets.go:198`: `ParsePrefix` splits at the
last `/`, parses the address part with `ParseAddr` (which dispatches on
the first `.`, `:` or `%` encountered), parses the bit count with
`strconv.Atoi` and checks it against the family's maximum.  A bare
address without `/` is an error (`netip.ParsePrefix: no '/'`).  For the
IPv6 branch only validity matters to the pipeline (such prefixes are
dropped by the `Is4()` filter), so the model records a successful IPv6
parse without computing the 128-bit value. -/

/-- Step function of Go `net/netip.parseIPv4`: walks the characters with
the current field value `val`, digit count `digLen` of the current field,
number `pos` of completed fields and their accumulated value `acc`
(base-256).  Rejects octets above 255, fields with leading zeros, empty
fields and anything but 4 dot-separated fields. -/
def parse4Aux : List Char → Nat → Nat → Nat → Nat → Option Nat
  | [], val, _, pos, acc =>
    if pos = 3 then some (acc * 256 + val) else none
  | c :: rest, val, digLen, pos, acc =>
    if c.isDigit then
      if digLen = 1 ∧ val = 0 then none
      else
        if 255 < val * 10 + (c.toNat - 48) then none
        else parse4Aux rest (val * 10 + (c.toNat - 48)) (digLen + 1) pos acc
    else if c = '.' then
      if digLen = 0 then none
      else if rest.isEmpty then none
      else if pos = 3 then none
      else parse4Aux rest 0 0 (pos + 1) (acc * 256 + val)
    else none

/-- Go `net/netip.parseIPv4`: parse a dotted-quad IPv4 address into its
32-bit value. -/
def parse4Go (cs : List Char) : Option Nat := parse4Aux cs 0 0 0 0

/-- Value of a hexadecimal digit, as accepted by Go `net/netip.parseIPv6`. -/
def hexDigitVal (c : Char) : Option Nat :=
  if '0' ≤ c ∧ c ≤ '9' then some (c.toNat - 48)
  else if 'a' ≤ c ∧ c ≤ 'f' then some (c.toNat - 87)
  else if 'A' ≤ c ∧ c ≤ 'F' then some (c.toNat - 55)
  else none

/-- Value of a run of hexadecimal digits. -/
def hexListVal (cs : List Char) : Nat :=
  cs.foldl (fun a c => a * 16 + (hexDigitVal c).getD 0) 0

/-- End-of-parse check of Go `net/netip.parseIPv6`: with `i` bytes
produced, fewer than 16 bytes require an ellipsis, and a full 16 bytes
forbid one (`::` must stand for at least one zero field). -/
def parse6Post (i : Nat) (ell : Bool) : Bool :=
  if i < 16 then ell else !ell

/-- Main loop of Go `net/netip.parseIPv6` (validity only): repeatedly
consume a hex field (at most `0xFFFF`), then either a trailing embedded
IPv4 address, the end of the string, or a `:` separator, tracking the
byte count `i` and whether a `::` ellipsis was seen.  The fuel is always
called with more than the length of the remaining input, which bounds the
number of iterations. -/
def parse6Loop : Nat → List Char → Nat → Bool → Bool
  | 0, _, _, _ => false
  | fuel + 1, s, i, ell =>
    let hex := s.takeWhile (fun c => (hexDigitVal c).isSome)
    let rest := s.dropWhile (fun c => (hexDigitVal c).isSome)
    if hex.length = 0 then false
    else if 65535 < hexListVal hex then false
    else if rest.head? = some '.' then
      ((ell || decide (i = 12)) && decide (i + 4 ≤ 16) && (parse4Go s).isSome)
        && parse6Post (i + 4) ell
    else
      match rest with
      | [] => parse6Post (i + 2) ell
      | [':'] => false
      | ':' :: ':' :: rest2 =>
        if ell then false
        else if rest2.isEmpty then parse6Post (i + 2) true
        else if i + 2 < 16 then parse6Loop fuel rest2 (i + 2) true
        else false
      | ':' :: rest1 =>
        if i + 2 < 16 then parse6Loop fuel rest1 (i + 2) ell
        else false
      | _ => false

/-- Zone split of Go `net/netip.parseIPv6`: cut the input at the first
`%`; the second component is the zone when a `%` is present. -/
def splitZone : List Char → List Char × Option (List Char)
  | [] => ([], none)
  | c :: rest =>
    if c = '%' then ([], some rest)
    else
      let p := splitZone rest
      (c :: p.1, p.2)

/-- Go `net/netip.parseIPv6`, validity only: zone handling, optional
leading `::`, then the field loop. -/
def parse6Go (s0 : List Char) : Bool :=
  let z := splitZone s0
  if z.2 = some [] then false
  else
    match z.1 with
    | ':' :: ':' :: rest =>
      if rest.isEmpty then true
      else parse6Loop (rest.length + 1) rest 0 true
    | s => parse6Loop (s.length + 1) s 0 false

/-- Result of Go `net/netip.ParseAddr` as far as the pipeline observes
it: an IPv4 value, or a valid IPv6 address (dropped later by the `Is4()`
filter, so its value is not tracked). -/
inductive AddrParse
  | v4 (addr : Nat)
  | v6
deriving DecidableEq, Repr

/-- Dispatch scan of Go `net/netip.ParseAddr`: the first `.`, `:` or `%`
decides between the IPv4 parser, the IPv6 parser, and an error. -/
def addrKind : List Char → Option Bool
  | [] => none
  | c :: rest =>
    if c = '.' then some true
    else if c = ':' then some false
    else if c = '%' then none
    else addrKind rest

/-- Go `net/netip.ParseAddr`. -/
def parseAddrGo (s : List Char) : Option AddrParse :=
  match addrKind s with
  | some true => (parse4Go s).map AddrParse.v4
  | some false => if parse6Go s then some AddrParse.v6 else none
  | none => none

/-- Sum of a decimal digit run, rejecting empties and non-digits
(Go `strconv.Atoi` digit phase). -/
def decDigitsVal : List Char → Option Nat
  | [] => none
  | cs =>
    if cs.all Char.isDigit then
      some (cs.foldl (fun a c => a * 10 + (c.toNat - 48)) 0)
    else none

/-- Go `strconv.Atoi` on the text after the slash: optional sign followed
by a nonempty digit run (the 64-bit overflow cutoff is unreachable here
because any overflowing value is also rejected by the prefix-length range
check that follows). -/
def atoiGo (cs : List Char) : Option Int :=
  match cs with
  | '+' :: rest => (decDigitsVal rest).map Int.ofNat
  | '-' :: rest => (decDigitsVal rest).map (fun n => -(Int.ofNat n))
  | _ => (decDigitsVal cs).map Int.ofNat

/-- Split at the last `/` of the string (Go `stringsLastIndexByte` inside
`ParsePrefix`); `none` when there is no `/`. -/
def splitLastSlash : List Char → Option (List Char × List Char)
  | [] => none
  | c :: rest =>
    match splitLastSlash rest with
    | some p => some (c :: p.1, p.2)
    | none => if c = '/' then some ([], rest) else none

/-- Result of Go `net/netip.ParsePrefix` as far as the pipeline observes
it. -/
inductive PfxParse
  | v4 (addr : Nat) (bits : Nat)
  | v6
deriving DecidableEq, Repr

/-- Go `net/netip.ParsePrefix`: split at the last `/`, parse the address,
reject an IPv6 address carrying a zone (go.dev/issue/51899 — a
successfully parsed v6 literal carries a zone exactly when `splitZone`
found a `%`, since `parse6Go` rejects an empty zone), reject a bits
string of more than one character starting in `0`, `+` or `-`
(go.dev/issue/55554: `strconv.Atoi` accepts a leading sign and leading
zeroes, while `ParsePrefix` does not), parse the bit count, and
range-check it against the family maximum.  Masked address bits are NOT
zeroed here (that happens in `netipx.RangeOfPrefix`). -/
def parsePrefixGo (s : List Char) : Option PfxParse :=
  match splitLastSlash s with
  | none => none
  | some (ipStr, bitsStr) =>
    match parseAddrGo ipStr with
    | none => none
    | some ip =>
      if ip = AddrParse.v6 ∧ (splitZone ipStr).2 ≠ none then none
      else if 1 < bitsStr.length ∧ (bitsStr.head? = some '0' ∨
          bitsStr.head? = some '+' ∨ bitsStr.head? = some '-') then none
      else
        match atoiGo bitsStr with
        | none => none
        | some bits =>
          match ip with
          | AddrParse.v4 a =>
            if 0 ≤ bits ∧ bits ≤ 32 then some (PfxParse.v4 a bits.toNat)
            else none
          | AddrParse.v6 =>
            if 0 ≤ bits ∧ bits ≤ 128 then some PfxParse.v6 else none

/-! ## Ranges and coverage -/

/-- `netipx.RangeOfPrefix` for an IPv4 prefix: mask the address to the
network address (`Prefix.Masked`) and return the closed interval of
covered addresses. -/
def rangeOfPfx4 (addr bits : Nat) : Nat × Nat :=
  (addr / 2 ^ (32 - bits) * 2 ^ (32 - bits),
   addr / 2 ^ (32 - bits) * 2 ^ (32 - bits) + (2 ^ (32 - bits) - 1))

/-- Membership of an address in a closed range. -/
def inR (r : Nat × Nat) (x : Nat) : Prop := r.1 ≤ x ∧ x ≤ r.2

/-- An address is covered by a list of ranges. -/
def coveredR (rs : List (Nat × Nat)) (x : Nat) : Prop := ∃ r ∈ rs, inR r x

/-- Last address of the block of a prefix `(address, length)`. -/
def blockEnd (p : Nat × Nat) : Nat := p.1 + (2 ^ (32 - p.2) - 1)

/-- Closed range of addresses denoted by a (canonical) prefix. -/
def blockR (p : Nat × Nat) : Nat × Nat := (p.1, blockEnd p)

/-- An address is covered by a list of prefixes. -/
def coveredB (ps : List (Nat × Nat)) (x : Nat) : Prop := ∃ p ∈ ps, inR (blockR p) x

/-! ## Range merging (`netipx.IPSetBuilder.IPSet`)

Modelled from the spec: the builder's normalization (`mergeIPRanges` in
`go4.org/netipx`, a dependency whose sources are not part of this
repository) sorts the collected ranges by start (ties by end) and then
sweeps once, extending the current accumulator range whenever the next
range overlaps or is adjacent, exactly as spec §4.3 step 3–4 describes. -/

/-- Insert a range into a list sorted by start ascending, ties by end. -/
def insRange (x : Nat × Nat) : List (Nat × Nat) → List (Nat × Nat)
  | [] => [x]
  | y :: ys =>
    if x.1 < y.1 ∨ (x.1 = y.1 ∧ x.2 ≤ y.2) then x :: y :: ys
    else y :: insRange x ys

/-- Sort ranges by start ascending, ties by end ascending. -/
def sortRanges : List (Nat × Nat) → List (Nat × Nat)
  | [] => []
  | x :: xs => insRange x (sortRanges xs)

/-- Merge sweep: `cur` is the accumulator range; a next range starting at
or before `cur.2 + 1` (overlapping or adjacent) extends it, anything else
flushes it. -/
def mergeGo : Nat × Nat → List (Nat × Nat) → List (Nat × Nat)
  | cur, [] => [cur]
  | cur, r :: rest =>
    if r.1 ≤ cur.2 + 1 then mergeGo (cur.1, max cur.2 r.2) rest
    else cur :: mergeGo r rest

/-- Canonical minimal sorted list of disjoint, non-adjacent ranges
covering the union of the input ranges. -/
def mergeRanges (rs : List (Nat × Nat)) : List (Nat × Nat) :=
  match sortRanges rs with
  | [] => []
  | r :: rest => mergeGo r rest

/-! ## Range-to-CIDR decomposition (`netipx.IPRange.Prefixes`)

`IPSet.Prefixes` decomposes each merged range with
`appendRangePrefixes`: if `[a, b]` is exactly one CIDR block, emit it;
otherwise split the range at the half boundary of the smallest block
containing both ends (the bit position after the common prefix of `a` and
`b`) and recurse on both halves.  `commonPrefixLen32` is the 32-bit
reduction of `uint128.commonPrefixLen` (leading zeros of the xor). -/

/-- Common prefix length of two 32-bit values: 32 minus the bit length of
their xor. -/
def commonPrefixLen32 (a b : Nat) : Nat := 32 - bitlen (a ^^^ b)

/-- Fuelled translation of `netipx.appendRangePrefixes`; fuel 33 is
enough for every range in the 32-bit space because each recursive call
increases the common prefix length of the two bounds. -/
def arpAux : Nat → Nat → Nat → List (Nat × Nat)
  | 0, _, _ => []
  | fuel + 1, a, b =>
    let c := commonPrefixLen32 a b
    if a % 2 ^ (32 - c) = 0 ∧ b % 2 ^ (32 - c) = 2 ^ (32 - c) - 1 then
      [(a, c)]
    else
      arpAux fuel a (a ||| (2 ^ (31 - c) - 1)) ++
        arpAux fuel ((b >>> (31 - c)) <<< (31 - c)) b

/-- `netipx.IPRange.Prefixes` for an IPv4 range `[a, b]`. -/
def rangePrefixes (a b : Nat) : List (Nat × Nat) := arpAux 33 a b

/-- `IPSetBuilder.IPSet().Prefixes()`: merge all collected ranges, then
decompose each merged range into CIDR prefixes, in order. -/
def ipSetPrefixes (rs : List (Nat × Nat)) : List (Nat × Nat) :=
  ((mergeRanges rs).map (fun r => rangePrefixes r.1 r.2)).flatten

/-! ## The pipeline entry points of `get_subnets.go` -/

/-- One `(subnet, AS)` row of the BGP table (`subnetAS` in the source). -/
structure SubnetAS where
  subnet : String
  as : String
deriving DecidableEq, Repr

/-- Loop body of `processSubnets` (`get_subnets.go:165-177`): rows whose
`as` field equals the target AS are parsed; a parse error appends an
`Invalid subnet` diagnostic (the `log.Printf` call, modelled as the
second component) and is skipped; parsed IPv4 prefixes are added to the
set builder as their masked range; parsed IPv6 prefixes are dropped by
the `Is4()` filter. -/
def processStep (targetAS : String) (st : List (Nat × Nat) × List String)
    (e : SubnetAS) : List (Nat × Nat) × List String :=
  if e.as == targetAS then
    match parsePrefixGo e.subnet.data with
    | none => (st.1, st.2 ++ ["Invalid subnet: " ++ e.subnet])
    | some (PfxParse.v4 a n) => (st.1 ++ [rangeOfPfx4 a n], st.2)
    | some PfxParse.v6 => st
  else st

/-- `processSubnets` (`get_subnets.go:162-181`): fold the rows, then
extract the canonical prefix list of the accumulated IP set.  The first
component is the returned `[]netip.Prefix`; the second component is the
sequence of logged parse diagnostics. -/
def processSubnets (subnets : List SubnetAS) (targetAS : String) :
    List (Nat × Nat) × List String :=
  let st := subnets.foldl (processStep targetAS) ([], [])
  (ipSetPrefixes st.1, st.2)

/-- Go `unicode.IsSpace` — the White_Space property: ASCII whitespace
plus NEL, NBSP, OGHAM SPACE MARK, the `Zs` spaces U+2000..U+200A, LINE
and PARAGRAPH SEPARATOR, NARROW NO-BREAK SPACE, MEDIUM MATHEMATICAL
SPACE and IDEOGRAPHIC SPACE. -/
def isSpaceGo (c : Char) : Bool :=
  decide (c.toNat = 32 ∨ (9 ≤ c.toNat ∧ c.toNat ≤ 13) ∨ c.toNat = 133 ∨
    c.toNat = 160 ∨ c.toNat = 5760 ∨ (8192 ≤ c.toNat ∧ c.toNat ≤ 8202) ∨
    c.toNat = 8232 ∨ c.toNat = 8233 ∨ c.toNat = 8239 ∨ c.toNat = 8287 ∨
    c.toNat = 12288)

/-- Go `strings.TrimSpace`: strip leading and trailing whitespace runes.
The ASCII fast path and the `TrimFunc(unicode.IsSpace)` slow path agree
rune-for-rune, so over a rune sequence it is dropping `isSpaceGo` runes
from both ends. -/
def trimGo (s : String) : String :=
  String.mk ((s.data.dropWhile isSpaceGo).reverse.dropWhile isSpaceGo).reverse

/-- Split a character stream at every newline. -/
def splitNl : List Char → List (List Char)
  | [] => [[]]
  | c :: rest =>
    if c = '\n' then [] :: splitNl rest
    else
      match splitNl rest with
      | [] => [[c]]
      | l :: ls => (c :: l) :: ls

/-- `dropCR` of Go `bufio.ScanLines`: strip one trailing `\r`. -/
def dropCR (l : List Char) : List Char :=
  match l.getLast? with
  | some '\r' => l.dropLast
  | _ => l

/-- UTF-8 byte length of a character sequence (Go strings are byte
strings, and the `bufio.Scanner` buffer limit is a byte count). -/
def utf8Len (l : List Char) : Nat := (l.map Char.utf8Size).sum

/-- The prefix of the newline-split chunks that `bufio.Scanner` actually
delivers: the scanner's buffer grows only to
`MaxScanTokenSize = 65536` bytes, and the buffer-full check precedes the
next read, so a line of 65536 bytes or more (no room for it and its
newline) makes `Scan` fail with `ErrTooLong` — an error the callers
never check — silently ending the loop and dropping that line and every
later one. -/
def takeScan : List (List Char) → List (List Char)
  | [] => []
  | l :: ls => if utf8Len l ≤ 65535 then l :: takeScan ls else []

/-- The lines produced by `bufio.Scanner` with `ScanLines`: split at
newlines, drop the final chunk when it is empty (no token is emitted for
a trailing newline), stop at the first chunk over the scanner's token
limit, and strip one trailing `\r` from every delivered line. -/
def linesGo (data : String) : List String :=
  let parts := splitNl data.data
  let parts := if parts.getLast? = some [] then parts.dropLast else parts
  ((takeScan parts).map dropCR).map (fun l => String.mk l)

/-- Loop body of `downloadReadySubnets` (`get_subnets.go:192-207`): trim
the line, skip it silently when empty, otherwise parse it like
`processStep` does. -/
def readyStep (st : List (Nat × Nat) × List String) (rawLine : String) :
    List (Nat × Nat) × List String :=
  let line := trimGo rawLine
  if line == "" then st
  else
    match parsePrefixGo line.data with
    | none => (st.1, st.2 ++ ["Invalid subnet: " ++ line])
    | some (PfxParse.v4 a n) => (st.1 ++ [rangeOfPfx4 a n], st.2)
    | some PfxParse.v6 => st

/-- Pure core of `downloadReadySubnets` (`get_subnets.go:183-211`) —
and of the identical loop of `downloadReadySplitSubnets` — applied to
the downloaded body text. -/
def downloadReadySubnets (data : String) : List (Nat × Nat) × List String :=
  let st := (linesGo data).foldl readyStep ([], [])
  (ipSetPrefixes st.1, st.2)

/-! ## Textual output (`writeSubnetsToFile`) -/

/-- Decimal digits of a natural number (`Nat.toDigits 10`). -/
def decChars (n : Nat) : List Char := Nat.toDigits 10 n

/-- Dotted-quad character rendering of a 32-bit address
(`netip.Addr.String` for IPv4). -/
def quadChars (a : Nat) : List Char :=
  decChars (a / 2 ^ 24 % 256) ++ ('.' :: (decChars (a / 2 ^ 16 % 256)
    ++ ('.' :: (decChars (a / 2 ^ 8 % 256) ++ ('.' :: decChars (a % 256))))))

/-- `netip.Prefix.String` for an IPv4 prefix: dotted-quad address, `/`,
decimal prefix length. -/
def renderPfx4 (p : Nat × Nat) : String :=
  String.mk (quadChars p.1 ++ '/' :: decChars p.2)

/-- Digit-fold of the IPv4 octet parser: the value accumulated by
`parse4Aux` over a digit run. -/
def foldVal (ds : List Char) (val : Nat) : Nat :=
  ds.foldl (fun v c => v * 10 + (c.toNat - 48)) val

/-- Executable witness that `parse4Aux` walks a digit run without error:
every character is a digit, no field acquires a leading zero, and every
intermediate value stays at most 255. -/
def goodRun : List Char → Nat → Nat → Bool
  | [], _, _ => true
  | c :: ds, val, digLen =>
    c.isDigit && !decide (digLen = 1 ∧ val = 0) &&
      decide (val * 10 + (c.toNat - 48) ≤ 255) &&
      goodRun ds (val * 10 + (c.toNat - 48)) (digLen + 1)

/-- File contents written by `writeSubnetsToFile` (`get_subnets.go:246-261`):
each prefix rendered by `netip.Prefix.String`, one per line. -/
def renderAll (ps : List (Nat × Nat)) : String :=
  ps.foldr (fun p acc => renderPfx4 p ++ "\n" ++ acc) ""

/-! ## The spec's greedy decomposition (refinement reference)

Modelled from the spec: §4.2 `rangeToPrefixes` — "find the largest block
size `2^k` such that `start` is aligned to `2^k` and
`start + 2^k − 1 ≤ end`; emit `(start, 32−k)`; advance; repeat until
`start > end`".  This is the definition the netipx decomposition is
compared against (claim C2).  The search bound 32 is harmless: for any
range inside the 32-bit space no block larger than `2^32` can fit. -/

/-- Largest feasible block exponent of the spec's greedy algorithm. -/
def greedyK (a b : Nat) : Nat :=
  Nat.findGreatest (fun k => a % 2 ^ k = 0 ∧ a + 2 ^ k ≤ b + 1) 32

/-- The spec's greedy alignment-first range decomposition (§4.2). -/
def rangeToPfxs (a b : Nat) : List (Nat × Nat) :=
  if h : a ≤ b then
    (a, 32 - greedyK a b) :: rangeToPfxs (a + 2 ^ greedyK a b) b
  else []
termination_by b + 1 - a
decreasing_by
  have h1 : 1 ≤ 2 ^ greedyK a b := Nat.one_le_two_pow
  omega

/-! ## Characterization helpers for the pipeline folds -/

/-- The range a row of the BGP table contributes (AS match and IPv4
parse), if any. -/
def pickRange (targetAS : String) (e : SubnetAS) : Option (Nat × Nat) :=
  if e.as == targetAS then
    match parsePrefixGo e.subnet.data with
    | some (PfxParse.v4 a n) => some (rangeOfPfx4 a n)
    | _ => none
  else none

/-- The diagnostic a row of the BGP table produces (AS match and failed
parse), if any. -/
def pickDiag (targetAS : String) (e : SubnetAS) : Option String :=
  if e.as == targetAS then
    match parsePrefixGo e.subnet.data with
    | none => some ("Invalid subnet: " ++ e.subnet)
    | some _ => none
  else none

/-- The range a raw line contributes to a ready-made CIDR set, if any. -/
def pickLineRange (rawLine : String) : Option (Nat × Nat) :=
  if trimGo rawLine == "" then none
  else
    match parsePrefixGo (trimGo rawLine).data with
    | some (PfxParse.v4 a n) => some (rangeOfPfx4 a n)
    | _ => none

/-- The diagnostic a raw line produces, if any. -/
def pickLineDiag (rawLine : String) : Option String :=
  if trimGo rawLine == "" then none
  else
    match parsePrefixGo (trimGo rawLine).data with
    | none => some ("Invalid subnet: " ++ trimGo rawLine)
    | some _ => none

/-- Strict block order on prefixes: the previous block ends strictly
before the next one starts. -/
def blockLt (p q : Nat × Nat) : Prop := blockEnd p < q.1

instance : IsTrans (Nat × Nat) blockLt :=
  ⟨fun p q r h1 h2 => by
    unfold blockLt at h1 h2 ⊢
    have hq : q.1 ≤ blockEnd q := by
      unfold blockEnd
      omega
    omega⟩

instance (r : Nat × Nat) (x : Nat) : Decidable (inR r x) := by
  unfold inR
  infer_instance

/-! ## Bit-length and xor lemmas -/

theorem bitlenAux_lt {fuel n : Nat} (h : n < 2 ^ fuel) : n < 2 ^ bitlenAux fuel n := by
  induction fuel generalizing n with
  | zero => simpa [bitlenAux] using h
  | succ fuel ih =>
    by_cases h0 : n = 0
    · simp [bitlenAux, h0]
    · have hd : n / 2 < 2 ^ fuel := by
        rw [pow_succ] at h
        omega
      have hrec := ih hd
      have h2 : n ≤ 2 * (n / 2) + 1 := by omega
      simp only [bitlenAux, h0, if_false, pow_succ]
      omega

theorem bitlenAux_min {fuel n m : Nat} (h : n < 2 ^ m) : bitlenAux fuel n ≤ m := by
  induction fuel generalizing n m with
  | zero => simp [bitlenAux]
  | succ fuel ih =>
    by_cases h0 : n = 0
    · simp [bitlenAux, h0]
    · have hm : m ≠ 0 := by
        rintro rfl
        simp at h
        omega
      obtain ⟨m', rfl⟩ : ∃ m', m = m' + 1 := ⟨m - 1, by omega⟩
      have hd : n / 2 < 2 ^ m' := by
        rw [pow_succ] at h
        omega
      have := ih hd
      simp only [bitlenAux, h0, if_false]
      omega

theorem bitlen_lt {n : Nat} (h : n < 2 ^ 64) : n < 2 ^ bitlen n := bitlenAux_lt h

theorem bitlen_min {n m : Nat} (h : n < 2 ^ m) : bitlen n ≤ m := bitlenAux_min h

theorem bitlen_pos {n : Nat} (h0 : n ≠ 0) (h : n < 2 ^ 64) : 1 ≤ bitlen n := by
  by_contra hc
  have h1 : bitlen n = 0 := by omega
  have h2 := bitlen_lt h
  rw [h1, pow_zero] at h2
  omega

theorem two_pow_bitlen_le {n : Nat} (h0 : n ≠ 0) (h : n < 2 ^ 64) :
    2 ^ (bitlen n - 1) ≤ n := by
  by_contra hc
  push_neg at hc
  have h1 := bitlen_min hc
  have h2 := bitlen_pos h0 h
  omega

theorem xor_lt_of_both {a b n : Nat} (ha : a < 2 ^ n) (hb : b < 2 ^ n) : a ^^^ b < 2 ^ n := by
  exact Nat.xor_lt_two_pow ha hb

-- the key difference facts
theorem xor_diff_facts {a b : Nat} (hab : a ≤ b) (hne : a ≠ b)
    (ha : a < 2 ^ 32) (hb : b < 2 ^ 32) :
    1 ≤ bitlen (a ^^^ b) ∧ bitlen (a ^^^ b) ≤ 32 ∧
      a / 2 ^ bitlen (a ^^^ b) = b / 2 ^ bitlen (a ^^^ b) ∧
      a / 2 ^ (bitlen (a ^^^ b) - 1) % 2 = 0 ∧
      b / 2 ^ (bitlen (a ^^^ b) - 1) % 2 = 1 := by
  set x := a ^^^ b with hx
  have hx0 : x ≠ 0 := fun h => hne (Nat.xor_eq_zero.mp h)
  have hxlt : x < 2 ^ 32 := Nat.xor_lt_two_pow ha hb
  have hx64 : x < 2 ^ 64 := lt_of_lt_of_le hxlt (by norm_num)
  set L := bitlen x with hL
  have hL1 : 1 ≤ L := bitlen_pos hx0 hx64
  have hL32 : L ≤ 32 := bitlen_min hxlt
  have hxL : x < 2 ^ L := bitlen_lt hx64
  have hxp : 2 ^ (L - 1) ≤ x := two_pow_bitlen_le hx0 hx64
  -- bits of x above L are 0; a and b agree there
  have hhi : ∀ i, L ≤ i → a.testBit i = b.testBit i := by
    intro i hi
    have : x.testBit i = false := by
      apply Nat.testBit_lt_two_pow
      exact lt_of_lt_of_le hxL (Nat.pow_le_pow_right (by norm_num) hi)
    rw [hx, Nat.testBit_xor] at this
    cases hA : a.testBit i <;> cases hB : b.testBit i <;> simp_all
  -- x has bit L-1 set
  have hdivx : x / 2 ^ (L - 1) = 1 := by
    have h2 : 2 ^ L = 2 ^ (L - 1) * 2 := by
      rw [← pow_succ]
      congr 1
      omega
    have hlt : x < 2 ^ (L - 1) * 2 := by rw [← h2]; exact hxL
    have h1 : 1 ≤ x / 2 ^ (L - 1) :=
      (Nat.le_div_iff_mul_le (Nat.pos_pow_of_pos _ (by norm_num))).mpr (by omega)
    have h2' : x / 2 ^ (L - 1) < 2 :=
      (Nat.div_lt_iff_lt_mul (Nat.pos_pow_of_pos _ (by norm_num))).mpr (by omega)
    omega
  have hxbit : x.testBit (L - 1) = true := by
    rw [Nat.testBit_to_div_mod, hdivx]
    decide
  have hdiff : a.testBit (L - 1) ≠ b.testBit (L - 1) := by
    intro heq
    rw [Nat.testBit_xor] at hxbit
    rw [heq] at hxbit
    simp at hxbit
  have hbits : a.testBit (L - 1) = false ∧ b.testBit (L - 1) = true := by
    cases hA : a.testBit (L - 1) <;> cases hB : b.testBit (L - 1)
    · exact absurd (hA.trans hB.symm) hdiff
    · exact ⟨rfl, rfl⟩
    · exfalso
      have hblt : b < a := by
        apply Nat.lt_of_testBit (L - 1) hB hA
        intro j hj
        exact (hhi j (by omega)).symm
      omega
    · exact absurd (hA.trans hB.symm) hdiff
  have hdiv : a / 2 ^ L = b / 2 ^ L := by
    apply Nat.eq_of_testBit_eq
    intro i
    rw [← Nat.shiftRight_eq_div_pow, ← Nat.shiftRight_eq_div_pow,
      Nat.testBit_shiftRight, Nat.testBit_shiftRight]
    exact hhi (L + i) (by omega)
  refine ⟨hL1, hL32, hdiv, ?_, ?_⟩
  · have := hbits.1
    rw [Nat.testBit_to_div_mod] at this
    simp at this
    omega
  · have := hbits.2
    rw [Nat.testBit_to_div_mod] at this
    simp at this
    omega

theorem or_lowmask (a p : Nat) : a ||| (2 ^ p - 1) = a / 2 ^ p * 2 ^ p + (2 ^ p - 1) := by
  rw [Nat.mul_comm]
  apply Nat.eq_of_testBit_eq
  intro j
  rw [Nat.testBit_or, Nat.testBit_mul_pow_two_add _ (by have : 0 < 2 ^ p := Nat.pos_pow_of_pos _ (by norm_num); omega : 2 ^ p - 1 < 2 ^ p)]
  by_cases hj : j < p
  · simp [hj, Nat.testBit_two_pow_sub_one]
  · simp only [hj, if_false, Nat.testBit_two_pow_sub_one]
    rw [← Nat.shiftRight_eq_div_pow, Nat.testBit_shiftRight]
    have : p + (j - p) = j := by omega
    rw [this]
    simp [hj]

theorem mod_two_pow_succ_split (a p : Nat) :
    a % 2 ^ (p + 1) = 2 ^ p * (a / 2 ^ p % 2) + a % 2 ^ p := by
  rw [pow_succ, Nat.mod_mul]
  omega

/-! ## Properties of the spec's greedy decomposition -/

theorem greedyK_le (a b : Nat) : greedyK a b ≤ 32 := Nat.findGreatest_le 32

theorem greedyK_pred {a b : Nat} (h : a ≤ b) :
    a % 2 ^ greedyK a b = 0 ∧ a + 2 ^ greedyK a b ≤ b + 1 := by
  have h0 := Nat.findGreatest_spec (P := fun k => a % 2 ^ k = 0 ∧ a + 2 ^ k ≤ b + 1)
    (Nat.zero_le 32) (by simp; omega)
  exact h0

theorem greedyK_maximal {a b k : Nat} (hk : k ≤ 32)
    (hpred : a % 2 ^ k = 0 ∧ a + 2 ^ k ≤ b + 1) : k ≤ greedyK a b :=
  Nat.le_findGreatest hk hpred

theorem greedyK_block {a L : Nat} (hL : L ≤ 32) (hal : a % 2 ^ L = 0) :
    greedyK a (a + 2 ^ L - 1) = L := by
  have h1 : 1 ≤ 2 ^ L := Nat.one_le_two_pow
  have hle : L ≤ greedyK a (a + 2 ^ L - 1) :=
    greedyK_maximal hL ⟨hal, by omega⟩
  have hub : greedyK a (a + 2 ^ L - 1) ≤ L := by
    have hpred := greedyK_pred (a := a) (b := a + 2 ^ L - 1) (by omega)
    have h2 : 2 ^ greedyK a (a + 2 ^ L - 1) ≤ 2 ^ L := by omega
    exact (Nat.pow_le_pow_iff_right (by norm_num)).mp h2
  omega

theorem rangeToPfxs_unfold {a b : Nat} (h : a ≤ b) :
    rangeToPfxs a b = (a, 32 - greedyK a b) :: rangeToPfxs (a + 2 ^ greedyK a b) b := by
  rw [rangeToPfxs]
  simp [h]

theorem rangeToPfxs_nil {a b : Nat} (h : ¬ a ≤ b) : rangeToPfxs a b = [] := by
  rw [rangeToPfxs]
  simp [h]

theorem greedy_block {a L : Nat} (hL : L ≤ 32) (hal : a % 2 ^ L = 0) :
    rangeToPfxs a (a + 2 ^ L - 1) = [(a, 32 - L)] := by
  have h1 : 1 ≤ 2 ^ L := Nat.one_le_two_pow
  rw [rangeToPfxs_unfold (by omega), greedyK_block hL hal,
    rangeToPfxs_nil (by omega)]

theorem greedy_cov_aux (n : Nat) : ∀ a b x, b + 1 - a ≤ n →
    (coveredB (rangeToPfxs a b) x ↔ (a ≤ x ∧ x ≤ b)) := by
  induction n with
  | zero =>
    intro a b x h
    rw [rangeToPfxs_nil (by omega)]
    simp [coveredB]
    omega
  | succ n ih =>
    intro a b x h
    by_cases hab : a ≤ b
    · have hpred := greedyK_pred hab
      have h1 : 1 ≤ 2 ^ greedyK a b := Nat.one_le_two_pow
      have hK := greedyK_le a b
      rw [rangeToPfxs_unfold hab]
      have ihx := ih (a + 2 ^ greedyK a b) b x (by omega)
      simp only [coveredB, List.mem_cons] at *
      constructor
      · rintro ⟨p, hp | hp, hin⟩
        · subst hp
          simp only [inR, blockR, blockEnd] at hin
          have h32 : 32 - (32 - greedyK a b) = greedyK a b := by omega
          rw [h32] at hin
          omega
        · have := ihx.mp ⟨p, hp, hin⟩
          omega
      · intro hx
        by_cases hsmall : x ≤ a + 2 ^ greedyK a b - 1
        · refine ⟨(a, 32 - greedyK a b), Or.inl rfl, ?_⟩
          simp only [inR, blockR, blockEnd]
          have h32 : 32 - (32 - greedyK a b) = greedyK a b := by omega
          rw [h32]
          omega
        · obtain ⟨p, hp, hin⟩ := ihx.mpr (by omega)
          exact ⟨p, Or.inr hp, hin⟩
    · rw [rangeToPfxs_nil hab]
      simp [coveredB]
      omega

theorem greedy_cov {a b : Nat} (x : Nat) :
    coveredB (rangeToPfxs a b) x ↔ (a ≤ x ∧ x ≤ b) :=
  greedy_cov_aux (b + 1 - a) a b x (le_refl _)

theorem greedy_mem_aux (n : Nat) : ∀ a b p, b + 1 - a ≤ n →
    p ∈ rangeToPfxs a b →
    p.2 ≤ 32 ∧ p.1 % 2 ^ (32 - p.2) = 0 ∧ a ≤ p.1 ∧ blockEnd p ≤ b := by
  induction n with
  | zero =>
    intro a b p h hp
    rw [rangeToPfxs_nil (by omega)] at hp
    simp at hp
  | succ n ih =>
    intro a b p h hp
    by_cases hab : a ≤ b
    · have hpred := greedyK_pred hab
      have h1 : 1 ≤ 2 ^ greedyK a b := Nat.one_le_two_pow
      have hK := greedyK_le a b
      rw [rangeToPfxs_unfold hab] at hp
      rcases List.mem_cons.mp hp with hp | hp
      · subst hp
        have h32 : 32 - (32 - greedyK a b) = greedyK a b := by omega
        refine ⟨by omega, ?_, le_refl _, ?_⟩
        · simpa [h32] using hpred.1
        · simp only [blockEnd, h32]
          omega
      · have := ih (a + 2 ^ greedyK a b) b p (by omega) hp
        exact ⟨this.1, this.2.1, by omega, this.2.2.2⟩
    · rw [rangeToPfxs_nil hab] at hp
      simp at hp

theorem greedy_mem {a b : Nat} {p : Nat × Nat} (hp : p ∈ rangeToPfxs a b) :
    p.2 ≤ 32 ∧ p.1 % 2 ^ (32 - p.2) = 0 ∧ a ≤ p.1 ∧ blockEnd p ≤ b :=
  greedy_mem_aux (b + 1 - a) a b p (le_refl _) hp

theorem greedy_head {a b : Nat} (h : a ≤ b) :
    (rangeToPfxs a b).head? = some (a, 32 - greedyK a b) := by
  rw [rangeToPfxs_unfold h]
  rfl

theorem greedy_ne_nil {a b : Nat} (h : a ≤ b) : rangeToPfxs a b ≠ [] := by
  rw [rangeToPfxs_unfold h]
  simp

theorem greedy_last_aux (n : Nat) : ∀ a b, b + 1 - a ≤ n → a ≤ b →
    ∃ p, (rangeToPfxs a b).getLast? = some p ∧ blockEnd p = b := by
  induction n with
  | zero => intro a b h hab; omega
  | succ n ih =>
    intro a b h hab
    have hpred := greedyK_pred hab
    have h1 : 1 ≤ 2 ^ greedyK a b := Nat.one_le_two_pow
    have hK := greedyK_le a b
    have h32 : 32 - (32 - greedyK a b) = greedyK a b := by omega
    rw [rangeToPfxs_unfold hab]
    by_cases hend : a + 2 ^ greedyK a b ≤ b
    · obtain ⟨p, hp, hpe⟩ := ih (a + 2 ^ greedyK a b) b (by omega) hend
      refine ⟨p, ?_, hpe⟩
      rw [List.getLast?_cons, hp]
      rfl
    · have hbeq : a + 2 ^ greedyK a b = b + 1 := by omega
      rw [rangeToPfxs_nil (by omega)]
      refine ⟨(a, 32 - greedyK a b), rfl, ?_⟩
      simp only [blockEnd, h32]
      omega

theorem greedy_last {a b : Nat} (hab : a ≤ b) :
    ∃ p, (rangeToPfxs a b).getLast? = some p ∧ blockEnd p = b :=
  greedy_last_aux (b + 1 - a) a b (le_refl _) hab

theorem greedy_chain_aux (n : Nat) : ∀ a b, b + 1 - a ≤ n →
    List.Chain' (fun p q => blockEnd p + 1 = q.1) (rangeToPfxs a b) := by
  induction n with
  | zero =>
    intro a b h
    rw [rangeToPfxs_nil (by omega)]
    simp
  | succ n ih =>
    intro a b h
    by_cases hab : a ≤ b
    · have hpred := greedyK_pred hab
      have h1 : 1 ≤ 2 ^ greedyK a b := Nat.one_le_two_pow
      have hK := greedyK_le a b
      have h32 : 32 - (32 - greedyK a b) = greedyK a b := by omega
      rw [rangeToPfxs_unfold hab]
      apply List.chain'_cons'.mpr
      refine ⟨?_, ih (a + 2 ^ greedyK a b) b (by omega)⟩
      intro q hq
      by_cases hend : a + 2 ^ greedyK a b ≤ b
      · rw [greedy_head hend] at hq
        cases hq
        simp only [blockEnd, h32]
        omega
      · rw [rangeToPfxs_nil hend] at hq
        simp at hq
    · rw [rangeToPfxs_nil hab]
      simp

theorem greedy_chain (a b : Nat) :
    List.Chain' (fun p q => blockEnd p + 1 = q.1) (rangeToPfxs a b) :=
  greedy_chain_aux (b + 1 - a) a b (le_refl _)

theorem greedy_append_aux (n : Nat) : ∀ p m a b,
    m % 2 ^ p = 0 → m / 2 ^ p % 2 = 1 →
    m - 2 ^ p ≤ a → a < m → m ≤ b → b < m + 2 ^ p →
    ¬(a = m - 2 ^ p ∧ b = m + 2 ^ p - 1) →
    m - a ≤ n →
    rangeToPfxs a b = rangeToPfxs a (m - 1) ++ rangeToPfxs m b := by
  induction n with
  | zero =>
    intro p m a b _ _ _ ha2 _ _ _ hn
    omega
  | succ n ih =>
    intro p m a b hm1 hm2 ha1 ha2 hb1 hb2 hex hn
    have hab : a ≤ b := by omega
    have hpow : 1 ≤ 2 ^ p := Nat.one_le_two_pow
    have hpred := greedyK_pred hab
    have hKle := greedyK_le a b
    have hpowK : 1 ≤ 2 ^ greedyK a b := Nat.one_le_two_pow

    have key : a + 2 ^ greedyK a b ≤ m := by
      by_cases hKp : greedyK a b ≤ p
      · have hdvd_a : 2 ^ greedyK a b ∣ a := Nat.dvd_of_mod_eq_zero hpred.1
        have hdvd_m : 2 ^ greedyK a b ∣ m :=
          (pow_dvd_pow 2 hKp).trans (Nat.dvd_of_mod_eq_zero hm1)
        have hdvd : 2 ^ greedyK a b ∣ m - a := Nat.dvd_sub' hdvd_m hdvd_a
        have := Nat.le_of_dvd (by omega) hdvd
        omega
      · exfalso
        push_neg at hKp
        have hdvd_a : 2 ^ (p + 1) ∣ a :=
          (pow_dvd_pow 2 hKp).trans (Nat.dvd_of_mod_eq_zero hpred.1)
        obtain ⟨s, hs⟩ := hdvd_a
        have hm_decomp : m = 2 ^ (p + 1) * (m / 2 ^ (p + 1)) + 2 ^ p := by
          have hdm := Nat.div_add_mod m (2 ^ (p + 1))
          have hmm : m % 2 ^ (p + 1) = 2 ^ p := by
            rw [mod_two_pow_succ_split m p, hm2, hm1]
            omega
          omega
        have hp1 : (2 : Nat) ^ (p + 1) = 2 * 2 ^ p := by ring
        -- show s ≤ m / 2^(p+1)
        have hst : s ≤ m / 2 ^ (p + 1) := by
          by_contra hc
          push_neg at hc
          have h1 : m / 2 ^ (p + 1) + 1 ≤ s := hc
          have h2 : 2 ^ (p + 1) * (m / 2 ^ (p + 1) + 1) ≤ 2 ^ (p + 1) * s :=
            Nat.mul_le_mul_left _ h1
          rw [Nat.mul_add] at h2
          omega
        obtain ⟨u, hu⟩ : ∃ u, m / 2 ^ (p + 1) = s + u := ⟨m / 2 ^ (p + 1) - s, by omega⟩
        rw [hu, Nat.mul_add] at hm_decomp
        -- from m - 2^p ≤ a we get the 2^(p+1)*u term is 0, so m - a = 2^p
        have hma : a = m - 2 ^ p := by omega
        -- K = p + 1
        have hK1 : 2 ^ greedyK a b ≤ 2 ^ (p + 1) := by
          have hb' : b + 1 ≤ m + 2 ^ p := by omega
          have := hpred.2
          rw [hp1]
          omega
        have hK2 : greedyK a b ≤ p + 1 :=
          (Nat.pow_le_pow_iff_right (by norm_num)).mp hK1
        have hKeq : greedyK a b = p + 1 := by omega
        rw [hKeq, hp1] at hpred
        -- b is forced to m + 2^p - 1
        have hbeq : b = m + 2 ^ p - 1 := by omega
        exact hex ⟨hma, hbeq⟩
    -- greedyK a (m-1) = greedyK a b
    have ham : a ≤ m - 1 := by omega
    have hKm : greedyK a (m - 1) = greedyK a b := by
      have hle1 : greedyK a b ≤ greedyK a (m - 1) :=
        greedyK_maximal hKle ⟨hpred.1, by omega⟩
      have hpred' := greedyK_pred ham
      have hle2 : greedyK a (m - 1) ≤ greedyK a b :=
        greedyK_maximal (greedyK_le a (m - 1)) ⟨hpred'.1, by omega⟩
      omega
    rw [rangeToPfxs_unfold hab, rangeToPfxs_unfold ham, hKm, List.cons_append]
    congr 1
    by_cases hend : a + 2 ^ greedyK a b = m
    · have hnil : rangeToPfxs m (m - 1) = [] := rangeToPfxs_nil (by omega)
      rw [hend, hnil]
      simp
    · have hrec := ih p m (a + 2 ^ greedyK a b) b hm1 hm2 (by omega) (by omega)
        hb1 hb2 (by intro hcon; omega) (by omega)
      exact hrec


/-! ## Equivalence of the netipx decomposition and the spec's greedy algorithm -/

theorem xor_lt_of_div_eq {u v t : Nat} (h : u / 2 ^ t = v / 2 ^ t) : u ^^^ v < 2 ^ t := by
  have hz : (u ^^^ v) >>> t = 0 := by
    apply Nat.eq_of_testBit_eq
    intro i
    rw [Nat.testBit_shiftRight, Nat.testBit_xor]
    have hu : u.testBit (t + i) = (u / 2 ^ t).testBit i := by
      rw [← Nat.shiftRight_eq_div_pow, Nat.testBit_shiftRight]
    have hv : v.testBit (t + i) = (v / 2 ^ t).testBit i := by
      rw [← Nat.shiftRight_eq_div_pow, Nat.testBit_shiftRight]
    simp [hu, hv, h]
  rw [Nat.shiftRight_eq_div_pow] at hz
  have hpos : 0 < 2 ^ t := Nat.pos_pow_of_pos _ (by norm_num)
  have hdm := Nat.div_add_mod (u ^^^ v) (2 ^ t)
  rw [hz, Nat.mul_zero, Nat.zero_add] at hdm
  have h2 := Nat.mod_lt (u ^^^ v) hpos
  omega

theorem bitlen_zero : bitlen 0 = 0 := rfl

theorem arpAux_eq_greedy : ∀ fuel a b, a ≤ b → b < 2 ^ 32 →
    32 - commonPrefixLen32 a b < fuel →
    arpAux fuel a b = rangeToPfxs a b := by
  intro fuel
  induction fuel with
  | zero =>
    intro a b _ _ h
    omega
  | succ fuel ih =>
    intro a b hab hb hfuel
    by_cases heq : a = b
    · subst heq
      have hc : commonPrefixLen32 a a = 32 := by
        unfold commonPrefixLen32
        rw [Nat.xor_self, bitlen_zero]
      simp only [arpAux, hc]
      rw [if_pos (by omega)]
      have hblock := greedy_block (a := a) (L := 0) (by omega) (by omega)
      simp only [pow_zero] at hblock
      have ha0 : a + 1 - 1 = a := by omega
      rw [ha0] at hblock
      rw [hblock]
    · obtain ⟨hL1, hL32, hdiv, habit, hbbit⟩ :=
        xor_diff_facts hab heq (by omega) hb
      have hcEq : commonPrefixLen32 a b = 32 - bitlen (a ^^^ b) := rfl
      have hc32 : 32 - commonPrefixLen32 a b = bitlen (a ^^^ b) := by omega
      have hc31 : 31 - commonPrefixLen32 a b = bitlen (a ^^^ b) - 1 := by omega
      simp only [arpAux]
      rw [hc32, hc31, hcEq]
      set L := bitlen (a ^^^ b) with hLdef
      set p := L - 1 with hpdef
      have hLeq : L = p + 1 := by omega
      set P := 2 ^ p with hPdef
      have hP0 : 0 < P := by
        rw [hPdef]
        exact Nat.pos_pow_of_pos _ (by norm_num)
      have h2L : 2 ^ L = P * 2 := by
        rw [hLeq, pow_succ, ← hPdef]
      -- decompositions at level p
      have hamod := Nat.div_add_mod' a P
      have hbmod := Nat.div_add_mod' b P
      have hamodlt := Nat.mod_lt a hP0
      have hbmodlt := Nat.mod_lt b hP0
      -- halves of the quotients
      have hAdd : a / P / 2 = a / 2 ^ L := by
        rw [Nat.div_div_eq_div_mul, hPdef, ← pow_succ, ← hLeq]
      have hBdd : b / P / 2 = b / 2 ^ L := by
        rw [Nat.div_div_eq_div_mul, hPdef, ← pow_succ, ← hLeq]
      have hA2 : a / P = a / 2 ^ L * 2 := by
        have h1 := Nat.div_add_mod (a / P) 2
        rw [hAdd] at h1
        omega
      have hB2 : b / P = b / 2 ^ L * 2 + 1 := by
        have h1 := Nat.div_add_mod (b / P) 2
        rw [hBdd] at h1
        omega
      have hBA : b / P = a / P + 1 := by
        rw [hA2, hB2, hdiv]
      -- the split midpoint b / P * P
      have hm_gt_a : a < b / P * P := by
        rw [hBA, Nat.add_mul, Nat.one_mul]
        omega
      have hm_le_b : b / P * P ≤ b := Nat.div_mul_le_self b P
      have hb_lt : b < b / P * P + P := by omega
      -- mod characterizations at level L
      have hsplitA : a % 2 ^ L = a % P := by
        rw [hLeq]
        rw [mod_two_pow_succ_split a p, ← hPdef, habit]
        omega
      have hsplitB : b % 2 ^ L = P + b % P := by
        rw [hLeq]
        rw [mod_two_pow_succ_split b p, ← hPdef, hbbit]
        omega
      by_cases hcond : a % 2 ^ L = 0 ∧ b % 2 ^ L = 2 ^ L - 1
      · rw [if_pos hcond]
        -- [a, b] is a single block of size 2^L
        have hadm := Nat.div_add_mod' a (2 ^ L)
        have hbdm := Nat.div_add_mod' b (2 ^ L)
        rw [← hdiv] at hbdm
        have hbval : a + 2 ^ L - 1 = b := by
          rw [hcond.1] at hadm
          rw [hcond.2] at hbdm
          have h1 : 1 ≤ 2 ^ L := Nat.one_le_two_pow
          omega
        have hblock := greedy_block (a := a) (L := L) hL32 hcond.1
        rw [hbval] at hblock
        rw [hblock]
      · rw [if_neg hcond]
        -- split at the midpoint
        rw [Nat.shiftRight_eq_div_pow, Nat.shiftLeft_eq, ← hPdef]
        have hor : a ||| (P - 1) = b / P * P - 1 := by
          rw [hPdef, or_lowmask, ← hPdef, hBA, Nat.add_mul, Nat.one_mul]
          omega
        rw [hor]
        -- quotient facts for the two halves
        have hdiv2 : b / P * P / P = b / P := Nat.mul_div_cancel _ hP0
        have he1 : b / P * P - 1 = a / P * P + (P - 1) := by
          rw [hBA, Nat.add_mul, Nat.one_mul]
          omega
        have hdiv1 : (b / P * P - 1) / P = a / P := by
          rw [he1, Nat.add_comm, Nat.add_mul_div_right _ _ hP0,
            Nat.div_eq_of_lt (by omega)]
          omega
        -- xor bounds for the recursive calls
        have hxor1 : a ^^^ (b / P * P - 1) < P := by
          rw [hPdef]
          apply xor_lt_of_div_eq
          rw [← hPdef, hdiv1]
        have hxor2 : (b / P * P) ^^^ b < P := by
          rw [hPdef]
          apply xor_lt_of_div_eq
          rw [← hPdef, hdiv2]
        have hbl1 : bitlen (a ^^^ (b / P * P - 1)) ≤ p := by
          apply bitlen_min
          rw [← hPdef]
          exact hxor1
        have hbl2 : bitlen ((b / P * P) ^^^ b) ≤ p := by
          apply bitlen_min
          rw [← hPdef]
          exact hxor2
        -- recursive calls
        have hrec1 := ih a (b / P * P - 1) (by omega) (by omega)
          (by
            have hcr : commonPrefixLen32 a (b / P * P - 1) =
                32 - bitlen (a ^^^ (b / P * P - 1)) := rfl
            omega)
        have hrec2 := ih (b / P * P) b (by omega) hb
          (by
            have hcr : commonPrefixLen32 (b / P * P) b =
                32 - bitlen ((b / P * P) ^^^ b) := rfl
            omega)
        rw [hrec1, hrec2]
        -- the excluded full-block configuration is exactly the guard
        have hexcl : ¬(a = b / P * P - P ∧ b = b / P * P + P - 1) := by
          rintro ⟨hea, heb⟩
          apply hcond
          constructor
          · rw [hsplitA]
            have h1 : a = a / P * P := by
              rw [hea, hBA, Nat.add_mul, Nat.one_mul]
              omega
            rw [h1, Nat.mul_mod_left]
          · rw [hsplitB, h2L]
            have h2 : b % P = P - 1 := by omega
            omega
        -- glue
        have happ := greedy_append_aux (b / P * P - a) p (b / P * P) a b
          (by rw [← hPdef, Nat.mul_mod_left])
          (by rw [← hPdef, hdiv2, hBA, hA2, hdiv]; omega)
          (by
            rw [← hPdef, hBA, Nat.add_mul, Nat.one_mul]
            omega)
          hm_gt_a hm_le_b
          (by rw [← hPdef]; omega)
          (by rw [← hPdef]; exact hexcl)
          (le_refl _)
        exact happ.symm

/-! ## Properties of the range merge -/

theorem rangePrefixes_eq_greedy {a b : Nat} (hab : a ≤ b) (hb : b < 2 ^ 32) :
    rangePrefixes a b = rangeToPfxs a b :=
  arpAux_eq_greedy 33 a b hab hb (by omega)

theorem coveredR_cons {r : Nat × Nat} {l : List (Nat × Nat)} {x : Nat} :
    coveredR (r :: l) x ↔ inR r x ∨ coveredR l x := by
  simp [coveredR]

theorem coveredR_perm {l l' : List (Nat × Nat)} (h : List.Perm l l') (x : Nat) :
    coveredR l x ↔ coveredR l' x := by
  unfold coveredR
  constructor
  · rintro ⟨r, hr, hin⟩
    exact ⟨r, h.mem_iff.mp hr, hin⟩
  · rintro ⟨r, hr, hin⟩
    exact ⟨r, h.mem_iff.mpr hr, hin⟩

theorem insRange_perm (x : Nat × Nat) (l : List (Nat × Nat)) :
    List.Perm (insRange x l) (x :: l) := by
  induction l with
  | nil => rfl
  | cons y ys ih =>
    unfold insRange
    by_cases h : x.1 < y.1 ∨ (x.1 = y.1 ∧ x.2 ≤ y.2)
    · rw [if_pos h]
    · rw [if_neg h]
      exact (List.Perm.cons y ih).trans (List.Perm.swap x y ys)

theorem sortRanges_perm (l : List (Nat × Nat)) : List.Perm (sortRanges l) l := by
  induction l with
  | nil => rfl
  | cons x xs ih =>
    unfold sortRanges
    exact (insRange_perm x (sortRanges xs)).trans (List.Perm.cons x ih)

theorem insRange_pairwise {x : Nat × Nat} {l : List (Nat × Nat)}
    (h : l.Pairwise (fun u v => u.1 ≤ v.1)) :
    (insRange x l).Pairwise (fun u v => u.1 ≤ v.1) := by
  induction l with
  | nil => simp [insRange]
  | cons y ys ih =>
    have h1 := (List.pairwise_cons.mp h).1
    have h2 := (List.pairwise_cons.mp h).2
    unfold insRange
    by_cases hc : x.1 < y.1 ∨ (x.1 = y.1 ∧ x.2 ≤ y.2)
    · rw [if_pos hc]
      apply List.Pairwise.cons
      · intro z hz
        rcases List.mem_cons.mp hz with rfl | hz'
        · omega
        · have := h1 z hz'
          omega
      · exact h
    · rw [if_neg hc]
      apply List.Pairwise.cons
      · intro z hz
        have hmem := (insRange_perm x ys).mem_iff.mp hz
        rcases List.mem_cons.mp hmem with rfl | hz'
        · push_neg at hc
          omega
        · exact h1 z hz'
      · exact ih h2

theorem sortRanges_pairwise (l : List (Nat × Nat)) :
    (sortRanges l).Pairwise (fun u v => u.1 ≤ v.1) := by
  induction l with
  | nil => simp [sortRanges]
  | cons x xs ih =>
    unfold sortRanges
    exact insRange_pairwise ih

theorem mergeGo_cov {l : List (Nat × Nat)} : ∀ {cur : Nat × Nat},
    (cur :: l).Pairwise (fun u v => u.1 ≤ v.1) →
    ∀ x, coveredR (mergeGo cur l) x ↔ (inR cur x ∨ coveredR l x) := by
  induction l with
  | nil =>
    intro cur _ x
    simp [mergeGo, coveredR_cons, coveredR]
  | cons r rest ih =>
    intro cur hpw x
    have hpw1 := (List.pairwise_cons.mp hpw).1
    have hpwt := (List.pairwise_cons.mp hpw).2
    have hcr : cur.1 ≤ r.1 := hpw1 r (by simp)
    unfold mergeGo
    by_cases hc : r.1 ≤ cur.2 + 1
    · rw [if_pos hc]
      have hpw' : ((cur.1, max cur.2 r.2) :: rest).Pairwise
          (fun u v => u.1 ≤ v.1) := by
        apply List.Pairwise.cons
        · intro z hz
          exact hpw1 z (List.mem_cons_of_mem r hz)
        · exact (List.pairwise_cons.mp hpwt).2
      have hint : inR (cur.1, max cur.2 r.2) x ↔ (inR cur x ∨ inR r x) := by
        simp only [inR]
        rcases Nat.le_total cur.2 r.2 with hmx | hmx
        · rw [Nat.max_eq_right hmx]
          omega
        · rw [Nat.max_eq_left hmx]
          omega
      rw [ih hpw' x, coveredR_cons, hint]
      tauto
    · rw [if_neg hc]
      rw [coveredR_cons, ih hpwt x, coveredR_cons]

theorem mergeGo_canon {l : List (Nat × Nat)} : ∀ {cur : Nat × Nat},
    (cur :: l).Pairwise (fun u v => u.1 ≤ v.1) →
    cur.1 ≤ cur.2 → (∀ r ∈ l, r.1 ≤ r.2) →
    ∃ h t, mergeGo cur l = h :: t ∧ h.1 = cur.1 ∧
      List.Chain' (fun r s => r.2 + 1 < s.1) (h :: t) ∧
      (∀ r ∈ h :: t, r.1 ≤ r.2) := by
  induction l with
  | nil =>
    intro cur _ hv _
    refine ⟨cur, [], by simp [mergeGo], rfl, by simp, ?_⟩
    intro r hr
    rcases List.mem_singleton.mp hr with rfl
    exact hv
  | cons r rest ih =>
    intro cur hpw hv hvl
    have hpw1 := (List.pairwise_cons.mp hpw).1
    have hpwt := (List.pairwise_cons.mp hpw).2
    unfold mergeGo
    by_cases hc : r.1 ≤ cur.2 + 1
    · rw [if_pos hc]
      have hpw2 : ((cur.1, max cur.2 r.2) :: rest).Pairwise
          (fun u v => u.1 ≤ v.1) := by
        apply List.Pairwise.cons
        · intro z hz
          exact hpw1 z (List.mem_cons_of_mem r hz)
        · exact (List.pairwise_cons.mp hpwt).2
      have hvc : (cur.1, max cur.2 r.2).1 ≤ (cur.1, max cur.2 r.2).2 := by
        simp only
        omega
      exact ih hpw2 hvc (fun z hz => hvl z (List.mem_cons_of_mem r hz))
    · rw [if_neg hc]
      obtain ⟨h, t, heq, hh1, hch, hvr⟩ :=
        ih hpwt (hvl r (by simp)) (fun z hz => hvl z (List.mem_cons_of_mem r hz))
      refine ⟨cur, mergeGo r rest, rfl, rfl, ?_, ?_⟩
      · rw [heq]
        exact List.chain'_cons.mpr ⟨by rw [hh1]; omega, hch⟩
      · intro z hz
        rcases List.mem_cons.mp hz with rfl | hz'
        · exact hv
        · rw [heq] at hz'
          exact hvr z hz'

theorem gap_starts {s : Nat × Nat} {u : List (Nat × Nat)}
    (hch : List.Chain' (fun r t => r.2 + 1 < t.1) (s :: u))
    (hv : ∀ r ∈ s :: u, r.1 ≤ r.2) :
    ∀ w ∈ u, s.2 + 1 < w.1 := by
  induction u generalizing s with
  | nil => simp
  | cons t u' ih =>
    intro w hw
    have hch1 := (List.chain'_cons.mp hch).1
    have hch2 := (List.chain'_cons.mp hch).2
    rcases List.mem_cons.mp hw with rfl | hw'
    · exact hch1
    · have ht := ih hch2 (fun r hr => hv r (List.mem_cons_of_mem s hr)) w hw'
      have hvt : t.1 ≤ t.2 := hv t (by simp)
      omega

theorem canon_unique : ∀ l₁ l₂ : List (Nat × Nat),
    List.Chain' (fun r s => r.2 + 1 < s.1) l₁ →
    List.Chain' (fun r s => r.2 + 1 < s.1) l₂ →
    (∀ r ∈ l₁, r.1 ≤ r.2) → (∀ r ∈ l₂, r.1 ≤ r.2) →
    (∀ x, coveredR l₁ x ↔ coveredR l₂ x) → l₁ = l₂ := by
  intro l₁
  induction l₁ with
  | nil =>
    intro l₂ _ _ _ hv2 hcov
    cases l₂ with
    | nil => rfl
    | cons s u =>
      exfalso
      have hcv : coveredR (s :: u) s.1 :=
        ⟨s, by simp, ⟨le_refl _, hv2 s (by simp)⟩⟩
      have h2 := (hcov s.1).mpr hcv
      simp [coveredR] at h2
  | cons r t ih =>
    intro l₂ hch1 hch2 hv1 hv2 hcov
    cases l₂ with
    | nil =>
      exfalso
      have hcv : coveredR (r :: t) r.1 :=
        ⟨r, by simp, ⟨le_refl _, hv1 r (by simp)⟩⟩
      have h2 := (hcov r.1).mp hcv
      simp [coveredR] at h2
    | cons s u =>
      have hst1 := gap_starts hch1 hv1
      have hst2 := gap_starts hch2 hv2
      have hvr : r.1 ≤ r.2 := hv1 r (by simp)
      have hvs : s.1 ≤ s.2 := hv2 s (by simp)
      have h1 : s.1 ≤ r.1 := by
        obtain ⟨w, hw, hinw⟩ := (hcov r.1).mp ⟨r, by simp, ⟨le_refl _, hvr⟩⟩
        rcases List.mem_cons.mp hw with rfl | hw'
        · exact hinw.1
        · have := hst2 w hw'
          have := hinw.1
          omega
      have h2 : r.1 ≤ s.1 := by
        obtain ⟨w, hw, hinw⟩ := (hcov s.1).mpr ⟨s, by simp, ⟨le_refl _, hvs⟩⟩
        rcases List.mem_cons.mp hw with rfl | hw'
        · exact hinw.1
        · have := hst1 w hw'
          have := hinw.1
          omega
      have heq1 : r.1 = s.1 := by omega
      have h3 : r.2 ≤ s.2 := by
        by_contra hgt
        push_neg at hgt
        have hcv : coveredR (r :: t) (s.2 + 1) :=
          ⟨r, by simp, ⟨by omega, by omega⟩⟩
        obtain ⟨w, hw, hinw⟩ := (hcov (s.2 + 1)).mp hcv
        rcases List.mem_cons.mp hw with rfl | hw'
        · have := hinw.2
          omega
        · have := hst2 w hw'
          have := hinw.1
          omega
      have h4 : s.2 ≤ r.2 := by
        by_contra hgt
        push_neg at hgt
        have hcv : coveredR (s :: u) (r.2 + 1) :=
          ⟨s, by simp, ⟨by omega, by omega⟩⟩
        obtain ⟨w, hw, hinw⟩ := (hcov (r.2 + 1)).mpr hcv
        rcases List.mem_cons.mp hw with rfl | hw'
        · have := hinw.2
          omega
        · have := hst1 w hw'
          have := hinw.1
          omega
      have heq2 : r.2 = s.2 := by omega
      have hrs : r = s := by
        cases r
        cases s
        simp_all
      have htcov : ∀ x, coveredR t x ↔ coveredR u x := by
        intro x
        by_cases hx : x ≤ r.2
        · constructor
          · rintro ⟨w, hw, hinw⟩
            exfalso
            have := hst1 w hw
            have := hinw.1
            omega
          · rintro ⟨w, hw, hinw⟩
            exfalso
            have := hst2 w hw
            have := hinw.1
            omega
        · push_neg at hx
          constructor
          · intro hcv
            have hcv1 : coveredR (r :: t) x := coveredR_cons.mpr (Or.inr hcv)
            rcases coveredR_cons.mp ((hcov x).mp hcv1) with hin | hcv'
            · exfalso
              have := hin.2
              omega
            · exact hcv'
          · intro hcv
            have hcv1 : coveredR (s :: u) x := coveredR_cons.mpr (Or.inr hcv)
            rcases coveredR_cons.mp ((hcov x).mpr hcv1) with hin | hcv'
            · exfalso
              have := hin.2
              omega
            · exact hcv'
      have hteq := ih u (List.Chain'.tail hch1) (List.Chain'.tail hch2)
        (fun z hz => hv1 z (List.mem_cons_of_mem r hz))
        (fun z hz => hv2 z (List.mem_cons_of_mem s hz)) htcov
      rw [hrs, hteq]

theorem mergeRanges_nil_eq {rs : List (Nat × Nat)} (hs : sortRanges rs = []) :
    mergeRanges rs = [] := by
  unfold mergeRanges
  rw [hs]

theorem mergeRanges_cons_eq {rs : List (Nat × Nat)} {r : Nat × Nat}
    {rest : List (Nat × Nat)} (hs : sortRanges rs = r :: rest) :
    mergeRanges rs = mergeGo r rest := by
  unfold mergeRanges
  rw [hs]

theorem mergeRanges_cov (rs : List (Nat × Nat)) (x : Nat) :
    coveredR (mergeRanges rs) x ↔ coveredR rs x := by
  have hperm := sortRanges_perm rs
  have hpw := sortRanges_pairwise rs
  cases hs : sortRanges rs with
  | nil =>
    rw [hs] at hperm
    rw [mergeRanges_nil_eq hs, ← coveredR_perm hperm x]
  | cons r rest =>
    rw [hs] at hperm hpw
    rw [mergeRanges_cons_eq hs, mergeGo_cov hpw x, ← coveredR_cons,
      coveredR_perm hperm x]

theorem mergeRanges_canon {rs : List (Nat × Nat)} (hv : ∀ r ∈ rs, r.1 ≤ r.2) :
    List.Chain' (fun r s => r.2 + 1 < s.1) (mergeRanges rs) ∧
      ∀ r ∈ mergeRanges rs, r.1 ≤ r.2 := by
  have hperm := sortRanges_perm rs
  have hpw := sortRanges_pairwise rs
  cases hs : sortRanges rs with
  | nil =>
    rw [mergeRanges_nil_eq hs]
    simp
  | cons r rest =>
    rw [hs] at hperm hpw
    rw [mergeRanges_cons_eq hs]
    have hv' : ∀ z ∈ r :: rest, z.1 ≤ z.2 := fun z hz => hv z (hperm.mem_iff.mp hz)
    obtain ⟨h, t, heq, _, hch, hvt⟩ := mergeGo_canon hpw (hv' r (by simp))
      (fun z hz => hv' z (List.mem_cons_of_mem r hz))
    rw [heq]
    exact ⟨hch, hvt⟩

theorem mergeRanges_eq_of_canon {rs R : List (Nat × Nat)}
    (hv : ∀ r ∈ rs, r.1 ≤ r.2)
    (hch : List.Chain' (fun r s => r.2 + 1 < s.1) R)
    (hvR : ∀ r ∈ R, r.1 ≤ r.2)
    (hcov : ∀ x, coveredR rs x ↔ coveredR R x) : mergeRanges rs = R := by
  apply canon_unique (mergeRanges rs) R (mergeRanges_canon hv).1 hch
    (mergeRanges_canon hv).2 hvR
  intro x
  rw [mergeRanges_cov rs x]
  exact hcov x

/-! ## Properties of the full set-to-prefix-list conversion -/

theorem coveredB_flatten_iff {R : List (Nat × Nat)}
    (hv : ∀ r ∈ R, r.1 ≤ r.2 ∧ r.2 < 2 ^ 32) (x : Nat) :
    coveredB ((R.map (fun r => rangePrefixes r.1 r.2)).flatten) x ↔ coveredR R x := by
  unfold coveredB coveredR
  constructor
  · rintro ⟨p, hp, hin⟩
    rw [List.mem_flatten] at hp
    obtain ⟨l, hl, hpl⟩ := hp
    rw [List.mem_map] at hl
    obtain ⟨r, hr, rfl⟩ := hl
    have hb := hv r hr
    rw [rangePrefixes_eq_greedy hb.1 hb.2] at hpl
    have hcv : coveredB (rangeToPfxs r.1 r.2) x := ⟨p, hpl, hin⟩
    exact ⟨r, hr, (greedy_cov x).mp hcv⟩
  · rintro ⟨r, hr, hin⟩
    have hb := hv r hr
    obtain ⟨p, hp, hinp⟩ := (greedy_cov x).mpr hin
    refine ⟨p, ?_, hinp⟩
    rw [List.mem_flatten]
    refine ⟨rangePrefixes r.1 r.2, List.mem_map_of_mem _ hr, ?_⟩
    rw [rangePrefixes_eq_greedy hb.1 hb.2]
    exact hp

theorem mergeRanges_bound {rs : List (Nat × Nat)} (hv : ∀ r ∈ rs, r.1 ≤ r.2)
    (hb : ∀ r ∈ rs, r.2 < 2 ^ 32) :
    ∀ r ∈ mergeRanges rs, r.2 < 2 ^ 32 := by
  intro r hr
  have hvout := (mergeRanges_canon hv).2 r hr
  have hcv : coveredR (mergeRanges rs) r.2 := ⟨r, hr, ⟨hvout, le_refl _⟩⟩
  obtain ⟨s, hs, hins⟩ := (mergeRanges_cov rs r.2).mp hcv
  have h1 := hb s hs
  have h2 := hins.2
  omega

theorem ipSetPrefixes_cov {rs : List (Nat × Nat)} (hv : ∀ r ∈ rs, r.1 ≤ r.2)
    (hb : ∀ r ∈ rs, r.2 < 2 ^ 32) (x : Nat) :
    coveredB (ipSetPrefixes rs) x ↔ coveredR rs x := by
  unfold ipSetPrefixes
  rw [coveredB_flatten_iff
    (fun r hr => ⟨(mergeRanges_canon hv).2 r hr, mergeRanges_bound hv hb r hr⟩) x,
    mergeRanges_cov]

theorem ipSetPrefixes_mem {rs : List (Nat × Nat)} (hv : ∀ r ∈ rs, r.1 ≤ r.2)
    (hb : ∀ r ∈ rs, r.2 < 2 ^ 32) {p : Nat × Nat} (hp : p ∈ ipSetPrefixes rs) :
    p.2 ≤ 32 ∧ p.1 % 2 ^ (32 - p.2) = 0 ∧ blockEnd p < 2 ^ 32 := by
  unfold ipSetPrefixes at hp
  rw [List.mem_flatten] at hp
  obtain ⟨l, hl, hpl⟩ := hp
  rw [List.mem_map] at hl
  obtain ⟨r, hr, rfl⟩ := hl
  have hvr := (mergeRanges_canon hv).2 r hr
  have hbr := mergeRanges_bound hv hb r hr
  rw [rangePrefixes_eq_greedy hvr hbr] at hpl
  have hm := greedy_mem hpl
  refine ⟨hm.1, hm.2.1, ?_⟩
  have := hm.2.2.2
  omega

theorem chain_flatten_aux : ∀ R : List (Nat × Nat),
    List.Chain' (fun r s => r.2 + 1 < s.1) R →
    (∀ r ∈ R, r.1 ≤ r.2) → (∀ r ∈ R, r.2 < 2 ^ 32) →
    List.Chain' (fun p q => blockEnd p < q.1)
      ((R.map (fun r => rangePrefixes r.1 r.2)).flatten) := by
  intro R
  induction R with
  | nil => simp
  | cons r R' ih =>
    intro hch hv hbb
    simp only [List.map_cons, List.flatten_cons]
    rw [List.chain'_append]
    refine ⟨?_, ih (List.Chain'.tail hch)
      (fun z hz => hv z (List.mem_cons_of_mem r hz))
      (fun z hz => hbb z (List.mem_cons_of_mem r hz)), ?_⟩
    · have hvr := hv r (by simp)
      have hbr := hbb r (by simp)
      rw [rangePrefixes_eq_greedy hvr hbr]
      apply List.Chain'.imp ?_ (greedy_chain r.1 r.2)
      intro p q hpq
      omega
    · intro pl hpl ph hph
      cases R' with
      | nil => simp at hph
      | cons s R'' =>
        have hvr := hv r (by simp)
        have hbr := hbb r (by simp)
        have hvs : s.1 ≤ s.2 := hv s (by simp)
        have hbs : s.2 < 2 ^ 32 := hbb s (by simp)
        rw [rangePrefixes_eq_greedy hvr hbr] at hpl
        obtain ⟨pend, hpend, hpe⟩ := greedy_last hvr
        rw [hpend] at hpl
        have hpleq : pl = pend := by
          have h := hpl
          simp at h
          exact h.symm
        simp only [List.map_cons, List.flatten_cons] at hph
        rw [rangePrefixes_eq_greedy hvs hbs, rangeToPfxs_unfold hvs,
          List.cons_append, List.head?_cons] at hph
        have hpheq : ph = (s.1, 32 - greedyK s.1 s.2) := by
          have h := hph
          simp at h
          exact h.symm
        have hrel : r.2 + 1 < s.1 := (List.chain'_cons.mp hch).1
        rw [hpleq, hpheq, hpe]
        simp only
        omega

theorem ipSetPrefixes_chain {rs : List (Nat × Nat)} (hv : ∀ r ∈ rs, r.1 ≤ r.2)
    (hb : ∀ r ∈ rs, r.2 < 2 ^ 32) :
    List.Chain' (fun p q => blockEnd p < q.1) (ipSetPrefixes rs) :=
  chain_flatten_aux (mergeRanges rs) (mergeRanges_canon hv).1
    (mergeRanges_canon hv).2 (mergeRanges_bound hv hb)

/-! ## Bounds of parsed prefixes and pipeline fold characterizations -/

theorem parse4Aux_lt : ∀ (cs : List Char) (val digLen pos acc v : Nat),
    val ≤ 255 → acc < 256 ^ pos → pos ≤ 3 →
    parse4Aux cs val digLen pos acc = some v → v < 2 ^ 32 := by
  intro cs
  induction cs with
  | nil =>
    intro val digLen pos acc v hval hacc hpos hp
    unfold parse4Aux at hp
    by_cases h3 : pos = 3
    · rw [if_pos h3] at hp
      subst h3
      have h256 : (256 : Nat) ^ 3 = 16777216 := by norm_num
      have h232 : (2 : Nat) ^ 32 = 4294967296 := by norm_num
      simp only [Option.some.injEq] at hp
      omega
    · rw [if_neg h3] at hp
      cases hp
  | cons c rest ih =>
    intro val digLen pos acc v hval hacc hpos hp
    unfold parse4Aux at hp
    by_cases hd : c.isDigit
    · rw [if_pos hd] at hp
      by_cases hz : digLen = 1 ∧ val = 0
      · rw [if_pos hz] at hp
        cases hp
      · rw [if_neg hz] at hp
        by_cases hv : 255 < val * 10 + (c.toNat - 48)
        · rw [if_pos hv] at hp
          cases hp
        · rw [if_neg hv] at hp
          exact ih _ _ _ _ _ (by omega) hacc hpos hp
    · rw [if_neg hd] at hp
      by_cases hdot : c = '.'
      · rw [if_pos hdot] at hp
        by_cases h1 : digLen = 0
        · rw [if_pos h1] at hp
          cases hp
        · rw [if_neg h1] at hp
          by_cases h2 : rest.isEmpty
          · rw [if_pos h2] at hp
            cases hp
          · rw [if_neg h2] at hp
            by_cases h3 : pos = 3
            · rw [if_pos h3] at hp
              cases hp
            · rw [if_neg h3] at hp
              apply ih _ _ _ _ _ (by omega) ?_ (by omega) hp
              have hpow : (256 : Nat) ^ (pos + 1) = 256 ^ pos * 256 := by ring
              rw [hpow]
              omega
      · rw [if_neg hdot] at hp
        cases hp

theorem parse4Go_lt {cs : List Char} {v : Nat} (h : parse4Go cs = some v) :
    v < 2 ^ 32 :=
  parse4Aux_lt cs 0 0 0 0 v (by omega) (by norm_num) (by omega) h

theorem parseAddrGo_v4_lt {s : List Char} {a : Nat}
    (h : parseAddrGo s = some (AddrParse.v4 a)) : a < 2 ^ 32 := by
  unfold parseAddrGo at h
  cases hk : addrKind s with
  | none =>
    rw [hk] at h
    cases h
  | some b =>
    rw [hk] at h
    cases b with
    | false =>
      simp only at h
      by_cases h6 : parse6Go s
      · rw [if_pos h6] at h
        cases h
      · rw [if_neg h6] at h
        cases h
    | true =>
      simp only at h
      cases hp : parse4Go s with
      | none =>
        rw [hp] at h
        simp at h
      | some v =>
        rw [hp] at h
        simp only [Option.map_some', Option.some.injEq, AddrParse.v4.injEq] at h
        rw [← h]
        exact parse4Go_lt hp

theorem parsePrefixGo_v4_bounds {s : List Char} {a n : Nat}
    (h : parsePrefixGo s = some (PfxParse.v4 a n)) : a < 2 ^ 32 ∧ n ≤ 32 := by
  unfold parsePrefixGo at h
  split at h
  · cases h
  rename_i ipStr bitsStr hsp
  split at h
  · cases h
  rename_i ip hpa
  split at h
  · cases h
  split at h
  · cases h
  split at h
  · cases h
  rename_i bits hat
  split at h
  · rename_i a' hip
    split at h
    case isTrue hb =>
      simp only [Option.some.injEq, PfxParse.v4.injEq] at h
      constructor
      · rw [← h.1]
        exact parseAddrGo_v4_lt hpa
      · rw [← h.2]
        exact Int.toNat_le.mpr hb.2
    case isFalse => cases h
  · split at h
    · cases h
    · cases h

theorem rangeOfPfx4_valid {a n : Nat} (ha : a < 2 ^ 32) (hn : n ≤ 32) :
    (rangeOfPfx4 a n).1 ≤ (rangeOfPfx4 a n).2 ∧ (rangeOfPfx4 a n).2 < 2 ^ 32 := by
  unfold rangeOfPfx4
  simp only
  have hpos : 0 < 2 ^ (32 - n) := Nat.pos_pow_of_pos _ (by norm_num)
  constructor
  · omega
  · have hdm := Nat.div_add_mod' a (2 ^ (32 - n))
    have hlt := Nat.mod_lt a hpos
    have hsplit : (2 : Nat) ^ 32 = 2 ^ (32 - n) * 2 ^ n := by
      rw [← pow_add]
      congr 1
      omega
    have hq : a / 2 ^ (32 - n) < 2 ^ n := by
      by_contra hc
      push_neg at hc
      have := Nat.mul_le_mul_right (2 ^ (32 - n)) hc
      rw [Nat.mul_comm (2 ^ n) (2 ^ (32 - n)), ← hsplit] at this
      have := Nat.div_mul_le_self a (2 ^ (32 - n))
      omega
    have hq1 : (a / 2 ^ (32 - n) + 1) * 2 ^ (32 - n) ≤ 2 ^ n * 2 ^ (32 - n) := by
      apply Nat.mul_le_mul_right
      omega
    rw [Nat.add_mul, Nat.one_mul] at hq1
    rw [Nat.mul_comm (2 ^ n) (2 ^ (32 - n)), ← hsplit] at hq1
    omega

theorem foldl_process (t : String) : ∀ (l : List SubnetAS)
    (acc : List (Nat × Nat) × List String),
    l.foldl (processStep t) acc =
      (acc.1 ++ l.filterMap (pickRange t), acc.2 ++ l.filterMap (pickDiag t)) := by
  intro l
  induction l with
  | nil =>
    intro acc
    simp
  | cons e l' ih =>
    intro acc
    rw [List.foldl_cons, ih, List.filterMap_cons, List.filterMap_cons]
    by_cases hc : (e.as == t) = true
    · cases hp : parsePrefixGo e.subnet.data with
      | none =>
        simp [processStep, pickRange, pickDiag, hc, hp]
      | some pp =>
        cases pp with
        | v4 a n =>
          simp [processStep, pickRange, pickDiag, hc, hp]
        | v6 =>
          simp [processStep, pickRange, pickDiag, hc, hp]
    · simp [processStep, pickRange, pickDiag, hc]

theorem processSubnets_eq (l : List SubnetAS) (t : String) :
    processSubnets l t =
      (ipSetPrefixes (l.filterMap (pickRange t)), l.filterMap (pickDiag t)) := by
  unfold processSubnets
  rw [foldl_process]
  simp

theorem foldl_ready : ∀ (l : List String)
    (acc : List (Nat × Nat) × List String),
    l.foldl readyStep acc =
      (acc.1 ++ l.filterMap pickLineRange, acc.2 ++ l.filterMap pickLineDiag) := by
  intro l
  induction l with
  | nil =>
    intro acc
    simp
  | cons e l' ih =>
    intro acc
    rw [List.foldl_cons, ih, List.filterMap_cons, List.filterMap_cons]
    by_cases hc : (trimGo e == "") = true
    · simp [readyStep, pickLineRange, pickLineDiag, hc]
    · cases hp : parsePrefixGo (trimGo e).data with
      | none =>
        simp [readyStep, pickLineRange, pickLineDiag, hc, hp]
      | some pp =>
        cases pp with
        | v4 a n =>
          simp [readyStep, pickLineRange, pickLineDiag, hc, hp]
        | v6 =>
          simp [readyStep, pickLineRange, pickLineDiag, hc, hp]

theorem downloadReadySubnets_eq (data : String) :
    downloadReadySubnets data =
      (ipSetPrefixes ((linesGo data).filterMap pickLineRange),
        (linesGo data).filterMap pickLineDiag) := by
  unfold downloadReadySubnets
  rw [foldl_ready]
  simp

/-! ## Validity of picked ranges and assembly helpers -/

theorem pickRange_valid {t : String} {e : SubnetAS} {r : Nat × Nat}
    (h : pickRange t e = some r) : r.1 ≤ r.2 ∧ r.2 < 2 ^ 32 := by
  unfold pickRange at h
  split at h
  · split at h
    · rename_i a n hp
      simp only [Option.some.injEq] at h
      obtain ⟨ha, hn⟩ := parsePrefixGo_v4_bounds hp
      rw [← h]
      exact rangeOfPfx4_valid ha hn
    · cases h
  · cases h

theorem pickLineRange_valid {line : String} {r : Nat × Nat}
    (h : pickLineRange line = some r) : r.1 ≤ r.2 ∧ r.2 < 2 ^ 32 := by
  unfold pickLineRange at h
  split at h
  · cases h
  · split at h
    · rename_i a n hp
      simp only [Option.some.injEq] at h
      obtain ⟨ha, hn⟩ := parsePrefixGo_v4_bounds hp
      rw [← h]
      exact rangeOfPfx4_valid ha hn
    · cases h

theorem mergeRanges_perm_eq {rs rs' : List (Nat × Nat)} (hperm : List.Perm rs rs')
    (hv : ∀ r ∈ rs, r.1 ≤ r.2) : mergeRanges rs = mergeRanges rs' := by
  have hv' : ∀ r ∈ rs', r.1 ≤ r.2 := fun r hr => hv r (hperm.mem_iff.mpr hr)
  apply canon_unique _ _ (mergeRanges_canon hv).1 (mergeRanges_canon hv').1
    (mergeRanges_canon hv).2 (mergeRanges_canon hv').2
  intro x
  rw [mergeRanges_cov, mergeRanges_cov]
  exact coveredR_perm hperm x

theorem coveredR_filterMap_pick {l : List SubnetAS} {t : String} {x : Nat} :
    coveredR (l.filterMap (pickRange t)) x ↔
      ∃ e ∈ l, e.as = t ∧
        ∃ a n, parsePrefixGo e.subnet.data = some (PfxParse.v4 a n) ∧
          inR (rangeOfPfx4 a n) x := by
  unfold coveredR
  constructor
  · rintro ⟨r, hr, hin⟩
    rw [List.mem_filterMap] at hr
    obtain ⟨e, he, hpick⟩ := hr
    unfold pickRange at hpick
    split at hpick
    case isTrue hc =>
      split at hpick
      · rename_i a n hp
        simp only [Option.some.injEq] at hpick
        refine ⟨e, he, by simpa using hc, a, n, hp, ?_⟩
        rw [hpick]
        exact hin
      · cases hpick
    case isFalse hc => cases hpick
  · rintro ⟨e, he, has, a, n, hp, hin⟩
    refine ⟨rangeOfPfx4 a n, ?_, hin⟩
    rw [List.mem_filterMap]
    refine ⟨e, he, ?_⟩
    unfold pickRange
    rw [if_pos (by simpa using has), hp]

theorem coveredR_filterMap_line {ls : List String} {x : Nat} :
    coveredR (ls.filterMap pickLineRange) x ↔
      ∃ line ∈ ls, trimGo line ≠ "" ∧
        ∃ a n, parsePrefixGo (trimGo line).data = some (PfxParse.v4 a n) ∧
          inR (rangeOfPfx4 a n) x := by
  unfold coveredR
  constructor
  · rintro ⟨r, hr, hin⟩
    rw [List.mem_filterMap] at hr
    obtain ⟨line, hl, hpick⟩ := hr
    unfold pickLineRange at hpick
    split at hpick
    case isTrue hc => cases hpick
    case isFalse hc =>
      split at hpick
      · rename_i a n hp
        simp only [Option.some.injEq] at hpick
        refine ⟨line, hl, by simpa using hc, a, n, hp, ?_⟩
        rw [hpick]
        exact hin
      · cases hpick
  · rintro ⟨line, hl, hne, a, n, hp, hin⟩
    refine ⟨rangeOfPfx4 a n, ?_, hin⟩
    rw [List.mem_filterMap]
    refine ⟨line, hl, ?_⟩
    unfold pickLineRange
    rw [if_neg (by simpa using hne), hp]


theorem picksR_valid (l : List SubnetAS) (t : String) :
    ∀ r ∈ l.filterMap (pickRange t), r.1 ≤ r.2 := by
  intro r hr
  obtain ⟨e, _, hp⟩ := List.mem_filterMap.mp hr
  exact (pickRange_valid hp).1

theorem picksR_bound (l : List SubnetAS) (t : String) :
    ∀ r ∈ l.filterMap (pickRange t), r.2 < 2 ^ 32 := by
  intro r hr
  obtain ⟨e, _, hp⟩ := List.mem_filterMap.mp hr
  exact (pickRange_valid hp).2

theorem picksL_valid (ls : List String) :
    ∀ r ∈ ls.filterMap pickLineRange, r.1 ≤ r.2 := by
  intro r hr
  obtain ⟨e, _, hp⟩ := List.mem_filterMap.mp hr
  exact (pickLineRange_valid hp).1

theorem picksL_bound (ls : List String) :
    ∀ r ∈ ls.filterMap pickLineRange, r.2 < 2 ^ 32 := by
  intro r hr
  obtain ⟨e, _, hp⟩ := List.mem_filterMap.mp hr
  exact (pickLineRange_valid hp).2

theorem ipSetPrefixes_pairwise {rs : List (Nat × Nat)}
    (hv : ∀ r ∈ rs, r.1 ≤ r.2) (hb : ∀ r ∈ rs, r.2 < 2 ^ 32) :
    List.Pairwise (fun p q => p.1 < q.1 ∧ blockEnd p + 1 ≤ q.1)
      (ipSetPrefixes rs) := by
  have hch : List.Chain' blockLt (ipSetPrefixes rs) := ipSetPrefixes_chain hv hb
  have hpw : List.Pairwise blockLt (ipSetPrefixes rs) :=
    List.chain'_iff_pairwise.mp hch
  apply hpw.imp
  intro p q hpq
  unfold blockLt at hpq
  have hple : p.1 ≤ blockEnd p := by
    unfold blockEnd
    omega
  omega

/-! ## The claims -/

/-- C1: for every finite multiset of input rows (or raw lines), the set of
32-bit addresses covered by the returned prefix sequence equals the union
of the addresses covered by the input prefixes that survive the AS filter
(for `processSubnets`) and the IPv4 family filter, regardless of overlap
or duplication in the input. -/
theorem claim_C1_coverage_preservation :
    (∀ (subnets : List SubnetAS) (targetAS : String) (x : Nat),
      coveredB (processSubnets subnets targetAS).1 x ↔
        ∃ e ∈ subnets, e.as = targetAS ∧
          ∃ a n, parsePrefixGo e.subnet.data = some (PfxParse.v4 a n) ∧
            inR (rangeOfPfx4 a n) x) ∧
    (∀ (data : String) (x : Nat),
      coveredB (downloadReadySubnets data).1 x ↔
        ∃ line ∈ linesGo data, trimGo line ≠ "" ∧
          ∃ a n, parsePrefixGo (trimGo line).data = some (PfxParse.v4 a n) ∧
            inR (rangeOfPfx4 a n) x) := by
  constructor
  · intro subnets targetAS x
    rw [processSubnets_eq]
    simp only
    rw [ipSetPrefixes_cov (picksR_valid subnets targetAS)
      (picksR_bound subnets targetAS) x, coveredR_filterMap_pick]
  · intro data x
    rw [downloadReadySubnets_eq]
    simp only
    rw [ipSetPrefixes_cov (picksL_valid (linesGo data))
      (picksL_bound (linesGo data)) x, coveredR_filterMap_line]

/-- C3 (amended): every prefix sequence returned by the pipeline is sorted
by starting address strictly ascending and pairwise non-overlapping:
`end(p_i) + 1 ≤ start(p_j)` for `i < j`.  Adjacent output prefixes may
touch (`end + 1 = start`) when they decompose one merged range, so the
spec's strict-gap form `end(p_i) + 1 < start(p_{i+1})` is weakened to
`≤`. -/
theorem claim_C3_sorted_disjoint :
    (∀ (l : List SubnetAS) (t : String),
      List.Pairwise (fun p q => p.1 < q.1 ∧ blockEnd p + 1 ≤ q.1)
        (processSubnets l t).1) ∧
    (∀ data : String,
      List.Pairwise (fun p q => p.1 < q.1 ∧ blockEnd p + 1 ≤ q.1)
        (downloadReadySubnets data).1) := by
  constructor
  · intro l t
    rw [processSubnets_eq]
    exact ipSetPrefixes_pairwise (picksR_valid l t) (picksR_bound l t)
  · intro data
    rw [downloadReadySubnets_eq]
    exact ipSetPrefixes_pairwise (picksL_valid (linesGo data))
      (picksL_bound (linesGo data))

/-- C3 refutation: on the ready-made feed `1.1.1.1/32`, `1.1.1.2/32` the
returned sequence is the two touching host prefixes, so the claimed
invariant `end(p_i) + 1 < start(p_{i+1})` is violated. -/
theorem claim_C3_counterexample :
    ¬ List.Chain' (fun p q => blockEnd p + 1 < q.1)
      (downloadReadySubnets "1.1.1.1/32\n1.1.1.2/32").1 := by
  intro hch
  have heq : (downloadReadySubnets "1.1.1.1/32\n1.1.1.2/32").1 =
      [(16843009, 32), (16843010, 32)] := by decide
  rw [heq] at hch
  have h1 := (List.chain'_cons.mp hch).1
  unfold blockEnd at h1
  omega

/-- C6: `netipx.RangeOfPrefix` masks a parsed prefix to its network
address before it enters the set (first conjunct), and every prefix the
pipeline emits is canonical: its length is at most 32 and its address has
all host bits zero. -/
theorem claim_C6_host_bits_masked :
    (∀ a n : Nat, n ≤ 32 →
      rangeOfPfx4 a n = rangeOfPfx4 (a / 2 ^ (32 - n) * 2 ^ (32 - n)) n) ∧
    (∀ (l : List SubnetAS) (t : String), ∀ p ∈ (processSubnets l t).1,
      p.2 ≤ 32 ∧ p.1 % 2 ^ (32 - p.2) = 0) ∧
    (∀ data : String, ∀ p ∈ (downloadReadySubnets data).1,
      p.2 ≤ 32 ∧ p.1 % 2 ^ (32 - p.2) = 0) := by
  refine ⟨?_, ?_, ?_⟩
  · intro a n _
    unfold rangeOfPfx4
    rw [Nat.mul_div_cancel _ (Nat.pos_pow_of_pos _ (by norm_num))]
  · intro l t p hp
    rw [processSubnets_eq] at hp
    have := ipSetPrefixes_mem (picksR_valid l t) (picksR_bound l t) hp
    exact ⟨this.1, this.2.1⟩
  · intro data p hp
    rw [downloadReadySubnets_eq] at hp
    have := ipSetPrefixes_mem (picksL_valid (linesGo data))
      (picksL_bound (linesGo data)) hp
    exact ⟨this.1, this.2.1⟩

/-- C6 witness: a /24 whose address has host bits set is masked, and the
pipeline run on it emits the canonical network prefix. -/
theorem claim_C6_witness :
    rangeOfPfx4 167772167 24 =
      rangeOfPfx4 (167772167 / 2 ^ (32 - 24) * 2 ^ (32 - 24)) 24 ∧
    ((167772160, 24).2 ≤ 32 ∧
      (167772160, 24).1 % 2 ^ (32 - (167772160, 24).2) = 0) := by
  constructor
  · exact claim_C6_host_bits_masked.1 167772167 24 (by decide)
  · exact claim_C6_host_bits_masked.2.2 "10.0.0.7/24" (167772160, 24) (by decide)

/-- C7: normalization is order-invariant — permuting the input rows
yields exactly the same output prefix sequence. -/
theorem claim_C7_order_invariance :
    ∀ (l l' : List SubnetAS) (t : String), List.Perm l l' →
      (processSubnets l t).1 = (processSubnets l' t).1 := by
  intro l l' t hperm
  rw [processSubnets_eq, processSubnets_eq]
  simp only
  unfold ipSetPrefixes
  rw [mergeRanges_perm_eq (hperm.filterMap (pickRange t)) (picksR_valid l t)]

/-- C7 witness: swapping two rows leaves the output unchanged. -/
theorem claim_C7_witness :
    (processSubnets [⟨"10.0.1.0/24", "AS1"⟩, ⟨"10.0.0.0/24", "AS1"⟩] "AS1").1 =
      (processSubnets [⟨"10.0.0.0/24", "AS1"⟩, ⟨"10.0.1.0/24", "AS1"⟩] "AS1").1 :=
  claim_C7_order_invariance _ _ "AS1" (by decide)

/-- C9: a row contributes to `processSubnets` output exactly when its
`as` field is string-equal to the target (no trimming or case folding:
rows whose AS differs in any character can be removed without changing
the result), and every matching row whose subnet parses as an IPv4 prefix
has its (masked) address range covered by the output. -/
theorem claim_C9_exact_as_match :
    (∀ (l : List SubnetAS) (t : String),
      processSubnets l t = processSubnets (l.filter (fun e => e.as == t)) t) ∧
    (∀ (l : List SubnetAS) (t : String) (e : SubnetAS) (a n x : Nat),
      e ∈ l → e.as = t → parsePrefixGo e.subnet.data = some (PfxParse.v4 a n) →
      inR (rangeOfPfx4 a n) x → coveredB (processSubnets l t).1 x) := by
  constructor
  · intro l t
    rw [processSubnets_eq, processSubnets_eq]
    have hfm : ∀ (f : SubnetAS → Option (Nat × Nat)),
        (∀ e, (e.as == t) = false → f e = none) → True := fun _ _ => trivial
    congr 1
    · congr 1
      induction l with
      | nil => rfl
      | cons e l' ih =>
        by_cases hc : (e.as == t) = true
        · simp [List.filter_cons, hc, List.filterMap_cons, ih]
        · have hnone : pickRange t e = none := by
            unfold pickRange
            rw [if_neg (by simp_all)]
          simp [List.filter_cons, hc, List.filterMap_cons, hnone, ih]
    · induction l with
      | nil => rfl
      | cons e l' ih =>
        by_cases hc : (e.as == t) = true
        · simp [List.filter_cons, hc, List.filterMap_cons, ih]
        · have hnone : pickDiag t e = none := by
            unfold pickDiag
            rw [if_neg (by simp_all)]
          simp [List.filter_cons, hc, List.filterMap_cons, hnone, ih]
  · intro l t e a n x he has hp hin
    rw [processSubnets_eq]
    simp only
    rw [ipSetPrefixes_cov (picksR_valid l t) (picksR_bound l t) x,
      coveredR_filterMap_pick]
    exact ⟨e, he, has, a, n, hp, hin⟩

/-- C9 witness: an entry whose AS string differs from the target only by
surrounding whitespace is excluded, and a matching entry's range is
covered by the output. -/
theorem claim_C9_witness :
    processSubnets [⟨"10.0.0.0/24", "AS1"⟩, ⟨"10.0.1.0/24", " AS1"⟩] "AS1" =
      processSubnets
        (List.filter (fun e => e.as == "AS1")
          [⟨"10.0.0.0/24", "AS1"⟩, ⟨"10.0.1.0/24", " AS1"⟩]) "AS1" ∧
    coveredB (processSubnets [⟨"10.0.0.0/24", "AS1"⟩] "AS1").1 167772165 := by
  constructor
  · exact claim_C9_exact_as_match.1 _ "AS1"
  · exact claim_C9_exact_as_match.2 [⟨"10.0.0.0/24", "AS1"⟩] "AS1"
      ⟨"10.0.0.0/24", "AS1"⟩ 167772160 24 167772165 (by decide) (by decide)
      (by decide) (by decide)

/-- C10: `processSubnets` filters by AS before parsing — a row with a
non-matching AS, even one whose subnet text is arbitrary garbage, is
dropped without producing a diagnostic and without affecting either
component of the result. -/
theorem claim_C10_filter_before_parse :
    ∀ (l₁ l₂ : List SubnetAS) (t : String) (e : SubnetAS),
      e.as ≠ t → processSubnets (l₁ ++ e :: l₂) t = processSubnets (l₁ ++ l₂) t := by
  intro l₁ l₂ t e he
  rw [processSubnets_eq, processSubnets_eq]
  have hr : pickRange t e = none := by
    unfold pickRange
    rw [if_neg (by simpa using he)]
  have hd : pickDiag t e = none := by
    unfold pickDiag
    rw [if_neg (by simpa using he)]
  simp [List.filterMap_append, List.filterMap_cons, hr, hd]

/-- C10 witness: a malformed subnet under a foreign AS produces no
diagnostic and no output change. -/
theorem claim_C10_witness :
    processSubnets [⟨"not-an-ip", "AS2"⟩] "AS1" = processSubnets [] "AS1" :=
  claim_C10_filter_before_parse [] [] "AS1" ⟨"not-an-ip", "AS2"⟩ (by decide)

/-- C2: the range-to-CIDR decomposition used by the pipeline (netipx's
divide-and-conquer `appendRangePrefixes`) emits exactly the prefixes of
the spec's greedy alignment-first algorithm on every range in the 32-bit
space — including `end = 2^32 - 1`, which the Nat model handles without
overflow — and on the merged range [1.1.1.1, 1.1.1.2] it yields exactly
the two host prefixes, never a /31. -/
theorem claim_C2_greedy_decomposition :
    (∀ a b : Nat, a ≤ b → b < 2 ^ 32 → rangePrefixes a b = rangeToPfxs a b) ∧
    rangePrefixes 0 (2 ^ 32 - 1) = [(0, 0)] ∧
    rangePrefixes 16843009 16843010 = [(16843009, 32), (16843010, 32)] := by
  refine ⟨?_, by decide, by decide⟩
  intro a b hab hb
  exact rangePrefixes_eq_greedy hab hb

/-- C2 witness: the equivalence applied to the concrete merged range
[1.1.1.1, 1.1.1.2]. -/
theorem claim_C2_witness :
    rangePrefixes 16843009 16843010 = rangeToPfxs 16843009 16843010 :=
  claim_C2_greedy_decomposition.1 16843009 16843010 (by decide) (by decide)

theorem splitLastSlash_none {s : List Char} (h : '/' ∉ s) :
    splitLastSlash s = none := by
  induction s with
  | nil => rfl
  | cons c rest ih =>
    have hrest : splitLastSlash rest = none :=
      ih (fun hc => h (List.mem_cons_of_mem c hc))
    have hc : ¬ c = '/' := by
      intro hcc
      rw [hcc] at h
      exact h (List.mem_cons_self _ _)
    unfold splitLastSlash
    rw [hrest]
    simp [hc]

theorem parsePrefixGo_no_slash {s : List Char} (h : '/' ∉ s) :
    parsePrefixGo s = none := by
  unfold parsePrefixGo
  rw [splitLastSlash_none h]

/-- C5 refutation: the bare address line `1.2.3.4` (no `/n` suffix) is
rejected by the parser (`netip.ParsePrefix` demands a `/`), and the
pipeline logs it as an invalid subnet and drops it instead of returning
the /32 prefix of the address. -/
theorem claim_C5_counterexample :
    parsePrefixGo "1.2.3.4".data = none ∧
    downloadReadySubnets "1.2.3.4" = ([], ["Invalid subnet: 1.2.3.4"]) := by
  constructor
  · decide
  · decide

/-- C5 (amended): a line with no `/` anywhere — in particular a bare
IPv4 address — always FAILS to parse and is treated as malformed, while
the same address with an explicit `/32` parses successfully. -/
theorem claim_C5_bare_address_rejected :
    (∀ s : List Char, '/' ∉ s → parsePrefixGo s = none) ∧
    parsePrefixGo "1.2.3.4/32".data = some (PfxParse.v4 16909060 32) := by
  constructor
  · intro s h
    unfold parsePrefixGo
    rw [splitLastSlash_none h]
  · decide

/-- C5 witness: the amended statement applied to the bare address. -/
theorem claim_C5_witness :
    parsePrefixGo "1.2.3.4".data = none :=
  claim_C5_bare_address_rejected.1 "1.2.3.4".data (by decide)

theorem diag_characterization : ∀ ls : List String,
    ls.filterMap pickLineDiag =
      ((ls.map trimGo).filter
        (fun l => !(l == "") && (parsePrefixGo l.data).isNone)).map
          (fun l => "Invalid subnet: " ++ l) := by
  intro ls
  induction ls with
  | nil => rfl
  | cons e ls' ih =>
    rw [List.filterMap_cons, List.map_cons, List.filter_cons]
    by_cases hc : (trimGo e == "") = true
    · have hd : pickLineDiag e = none := by
        unfold pickLineDiag
        rw [if_pos hc]
      rw [hd]
      have hfc : (!(trimGo e == "") && (parsePrefixGo (trimGo e).data).isNone) = false := by
        rw [hc]
        rfl
      rw [hfc]
      simp only [Bool.false_eq_true, if_false]
      exact ih
    · cases hp : parsePrefixGo (trimGo e).data with
      | none =>
        have hd : pickLineDiag e = some ("Invalid subnet: " ++ trimGo e) := by
          unfold pickLineDiag
          rw [if_neg hc, hp]
        have hcnd : (!(trimGo e == "") && (none : Option PfxParse).isNone) = true := by
          simp_all
        rw [hd, hcnd, if_pos rfl, List.map_cons, ih]
      | some pp =>
        have hd : pickLineDiag e = none := by
          unfold pickLineDiag
          rw [if_neg hc, hp]
        have hcnd : (!(trimGo e == "") && ((some pp : Option PfxParse)).isNone) = false := by
          simp
        rw [hd, hcnd, if_neg (by simp : ¬ (false = true))]
        exact ih

/-- C4 (amended): restricted to the lines the scanner delivers (every
line of at most 65535 bytes before the first over-long one), processing
never aborts — every delivered non-blank line that fails to parse
produces exactly one diagnostic naming the offending literal, in input
order (first conjunct); the prefix set is built from only the delivered
lines that parse (second conjunct); both are returned together.  On the
concrete mixed input of Scenario D — including a `/08` length that
`ParsePrefix` rejects for its leading zero — two diagnostics and the
prefix set of the single valid line result. -/
theorem claim_C4_malformed_lines_skipped :
    (∀ data : String,
      (downloadReadySubnets data).2 =
        (((linesGo data).map trimGo).filter
          (fun l => !(l == "") && (parsePrefixGo l.data).isNone)).map
            (fun l => "Invalid subnet: " ++ l) ∧
      (downloadReadySubnets data).1 =
        ipSetPrefixes (((linesGo data).map trimGo).filterMap
          (fun l => if l == "" then none else
            match parsePrefixGo l.data with
            | some (PfxParse.v4 a n) => some (rangeOfPfx4 a n)
            | _ => none))) ∧
    downloadReadySubnets "not-an-ip\n10.0.0.0/08\n10.0.0.0/24" =
      ([(167772160, 24)],
        ["Invalid subnet: not-an-ip", "Invalid subnet: 10.0.0.0/08"]) := by
  refine ⟨?_, by decide⟩
  intro data
  rw [downloadReadySubnets_eq]
  refine ⟨diag_characterization (linesGo data), ?_⟩
  simp only
  congr 1
  rw [List.filterMap_map]
  rfl

/-! ## Round-trip of the textual output (claim C8 machinery) -/

theorem isDigit_toNat {c : Char} (h : c.isDigit = true) :
    48 ≤ c.toNat ∧ c.toNat ≤ 57 := by
  simp [Char.isDigit] at h
  exact h

theorem digit_ne_dot {c : Char} (h : c.isDigit = true) : ¬ c = '.' := by
  rintro rfl
  simp at h

theorem digit_ne_colon {c : Char} (h : c.isDigit = true) : ¬ c = ':' := by
  rintro rfl
  simp at h

theorem digit_ne_percent {c : Char} (h : c.isDigit = true) : ¬ c = '%' := by
  rintro rfl
  simp at h

theorem digit_ne_slash {c : Char} (h : c.isDigit = true) : ¬ c = '/' := by
  rintro rfl
  simp at h

theorem digit_ne_nl {c : Char} (h : c.isDigit = true) : ¬ c = '\n' := by
  rintro rfl
  simp at h

theorem digit_ne_cr {c : Char} (h : c.isDigit = true) : ¬ c = '\r' := by
  rintro rfl
  simp at h

theorem digit_not_space {c : Char} (h : c.isDigit = true) : isSpaceGo c = false := by
  have hb := isDigit_toNat h
  unfold isSpaceGo
  simp only [Bool.or_eq_false_iff, decide_eq_false_iff_not]
  omega

theorem run_step : ∀ (ds t : List Char) (val digLen pos acc : Nat),
    goodRun ds val digLen = true →
    parse4Aux (ds ++ t) val digLen pos acc =
      parse4Aux t (foldVal ds val) (digLen + ds.length) pos acc := by
  intro ds
  induction ds with
  | nil =>
    intro t val digLen pos acc _
    simp [foldVal]
  | cons c ds' ih =>
    intro t val digLen pos acc h
    simp only [goodRun, Bool.and_eq_true, Bool.not_eq_true',
      decide_eq_false_iff_not, decide_eq_true_eq] at h
    obtain ⟨⟨⟨hd, hz⟩, hle⟩, hrest⟩ := h
    have hfold : foldVal ds' (val * 10 + (c.toNat - 48)) = foldVal (c :: ds') val := rfl
    have hlen : digLen + 1 + ds'.length = digLen + (c :: ds').length := by
      simp
      omega
    rw [List.cons_append]
    conv_lhs => unfold parse4Aux
    rw [if_pos hd, if_neg hz, if_neg (by omega : ¬ 255 < val * 10 + (c.toNat - 48))]
    rw [ih t _ _ pos acc hrest, hfold, hlen]

set_option maxRecDepth 4096 in
theorem octet_facts : ∀ o : Nat, o < 256 →
    goodRun (decChars o) 0 0 = true ∧ foldVal (decChars o) 0 = o ∧
      decChars o ≠ [] ∧ (decChars o).all Char.isDigit = true := by
  decide

set_option maxRecDepth 4096 in
theorem atoi_small : ∀ n : Nat, n < 33 →
    atoiGo (decChars n) = some (Int.ofNat n) := by
  decide

set_option maxRecDepth 4096 in
theorem decChars_guard : ∀ n : Nat, n < 33 →
    ¬ (1 < (decChars n).length ∧ ((decChars n).head? = some '0' ∨
      (decChars n).head? = some '+' ∨ (decChars n).head? = some '-')) := by
  decide

set_option maxRecDepth 4096 in
theorem decChars_len : ∀ o : Nat, o < 256 → (decChars o).length ≤ 3 := by
  decide

theorem utf8Size_le_four (c : Char) : c.utf8Size ≤ 4 := by
  simp only [Char.utf8Size]
  split
  · omega
  split
  · omega
  split
  · omega
  · omega

theorem utf8Len_le (l : List Char) : utf8Len l ≤ 4 * l.length := by
  unfold utf8Len
  induction l with
  | nil => simp
  | cons c cs ih =>
    rw [List.map_cons, List.sum_cons, List.length_cons]
    have := utf8Size_le_four c
    omega

theorem takeScan_all : ∀ parts : List (List Char),
    (∀ l ∈ parts, utf8Len l ≤ 65535) → takeScan parts = parts := by
  intro parts
  induction parts with
  | nil =>
    intro _
    rfl
  | cons l ls ih =>
    intro hall
    unfold takeScan
    rw [if_pos (hall l (by simp)),
      ih (fun x hx => hall x (List.mem_cons_of_mem l hx))]

theorem decChars_digit {o : Nat} (ho : o < 256) :
    ∀ c ∈ decChars o, c.isDigit = true := by
  intro c hc
  exact List.all_eq_true.mp (octet_facts o ho).2.2.2 c hc

theorem quadChars_class (a : Nat) :
    ∀ c ∈ quadChars a, c.isDigit = true ∨ c = '.' := by
  unfold quadChars
  have hd : ∀ o : Nat, o < 256 → ∀ c ∈ decChars o, c.isDigit = true ∨ c = '.' :=
    fun o ho c h => Or.inl (decChars_digit ho c h)
  refine List.forall_mem_append.mpr ⟨hd _ (Nat.mod_lt _ (by norm_num)), ?_⟩
  refine List.forall_mem_cons.mpr ⟨Or.inr rfl, ?_⟩
  refine List.forall_mem_append.mpr ⟨hd _ (Nat.mod_lt _ (by norm_num)), ?_⟩
  refine List.forall_mem_cons.mpr ⟨Or.inr rfl, ?_⟩
  refine List.forall_mem_append.mpr ⟨hd _ (Nat.mod_lt _ (by norm_num)), ?_⟩
  exact List.forall_mem_cons.mpr ⟨Or.inr rfl, hd _ (Nat.mod_lt _ (by norm_num))⟩

theorem renderPfx4_class {a n : Nat} (hn : n < 256) :
    ∀ c ∈ (renderPfx4 (a, n)).data, c.isDigit = true ∨ c = '.' ∨ c = '/' := by
  have hdata : (renderPfx4 (a, n)).data = quadChars a ++ '/' :: decChars n := rfl
  rw [hdata]
  refine List.forall_mem_append.mpr ⟨?_, ?_⟩
  · intro c h
    rcases quadChars_class a c h with h' | h'
    · exact Or.inl h'
    · exact Or.inr (Or.inl h')
  · refine List.forall_mem_cons.mpr ⟨Or.inr (Or.inr rfl), ?_⟩
    intro c h
    exact Or.inl (decChars_digit hn c h)

theorem parse4Aux_dot {rest : List Char} {val digLen pos acc : Nat}
    (h1 : digLen ≠ 0) (h2 : rest ≠ []) (h3 : pos ≠ 3) :
    parse4Aux ('.' :: rest) val digLen pos acc =
      parse4Aux rest 0 0 (pos + 1) (acc * 256 + val) := by
  conv_lhs => unfold parse4Aux
  rw [if_neg (by decide : ¬ ('.'.isDigit = true)), if_pos rfl, if_neg h1,
    if_neg (by simpa using h2), if_neg h3]

theorem parse4Aux_end {val digLen acc : Nat} :
    parse4Aux [] val digLen 3 acc = some (acc * 256 + val) := by
  unfold parse4Aux
  rw [if_pos rfl]

theorem parse4_quad {o1 o2 o3 o4 : Nat} (h1 : o1 < 256) (h2 : o2 < 256)
    (h3 : o3 < 256) (h4 : o4 < 256) :
    parse4Go (decChars o1 ++ ('.' :: (decChars o2 ++ ('.' :: (decChars o3
        ++ ('.' :: decChars o4)))))) =
      some (((o1 * 256 + o2) * 256 + o3) * 256 + o4) := by
  obtain ⟨g1, f1, n1, _⟩ := octet_facts o1 h1
  obtain ⟨g2, f2, n2, _⟩ := octet_facts o2 h2
  obtain ⟨g3, f3, n3, _⟩ := octet_facts o3 h3
  obtain ⟨g4, f4, n4, _⟩ := octet_facts o4 h4
  unfold parse4Go
  rw [run_step _ _ _ _ _ _ g1, f1]
  rw [parse4Aux_dot (by have := List.length_pos.mpr n1; omega)
    (by
      intro hc
      rw [List.append_eq_nil] at hc
      exact n2 hc.1)
    (by omega)]
  rw [run_step _ _ _ _ _ _ g2, f2]
  rw [parse4Aux_dot (by have := List.length_pos.mpr n2; omega)
    (by
      intro hc
      rw [List.append_eq_nil] at hc
      exact n3 hc.1)
    (by omega)]
  rw [run_step _ _ _ _ _ _ g3, f3]
  rw [parse4Aux_dot (by have := List.length_pos.mpr n3; omega) n4 (by omega)]
  rw [← List.append_nil (decChars o4)]
  rw [run_step _ _ _ _ _ _ g4, f4]
  rw [parse4Aux_end]
  norm_num

theorem quad_arith {a : Nat} (h : a < 2 ^ 32) :
    ((a / 2 ^ 24 % 256 * 256 + a / 2 ^ 16 % 256) * 256 + a / 2 ^ 8 % 256) * 256
      + a % 256 = a := by
  have e8 : (2 : Nat) ^ 8 = 256 := by norm_num
  have e16 : (2 : Nat) ^ 16 = 65536 := by norm_num
  have e24 : (2 : Nat) ^ 24 = 16777216 := by norm_num
  have e32 : (2 : Nat) ^ 32 = 4294967296 := by norm_num
  rw [e8, e16, e24]
  rw [e32] at h
  omega

theorem addrKind_digits_dot : ∀ s : List Char,
    (∀ c ∈ s, c.isDigit = true ∨ c = '.') → '.' ∈ s → addrKind s = some true := by
  intro s
  induction s with
  | nil =>
    intro _ h
    cases h
  | cons c rest ih =>
    intro hall hdot
    unfold addrKind
    by_cases hc : c = '.'
    · rw [if_pos hc]
    · rw [if_neg hc]
      have hcd : c.isDigit = true := by
        rcases hall c (by simp) with h | h
        · exact h
        · exact absurd h hc
      rw [if_neg (digit_ne_colon hcd), if_neg (digit_ne_percent hcd)]
      apply ih (fun x hx => hall x (List.mem_cons_of_mem c hx))
      rcases List.mem_cons.mp hdot with h | h
      · exact absurd h.symm hc
      · exact h

theorem splitLastSlash_append {u v : List Char} (hu : '/' ∉ u) (hv : '/' ∉ v) :
    splitLastSlash (u ++ '/' :: v) = some (u, v) := by
  induction u with
  | nil =>
    rw [List.nil_append]
    unfold splitLastSlash
    rw [splitLastSlash_none hv]
    simp
  | cons c u' ih =>
    rw [List.cons_append]
    unfold splitLastSlash
    rw [ih (fun hc => hu (List.mem_cons_of_mem c hc))]

theorem parse4Go_quadChars {a : Nat} (ha : a < 2 ^ 32) :
    parse4Go (quadChars a) = some a := by
  unfold quadChars
  rw [parse4_quad (Nat.mod_lt _ (by norm_num)) (Nat.mod_lt _ (by norm_num))
    (Nat.mod_lt _ (by norm_num)) (Nat.mod_lt _ (by norm_num))]
  rw [quad_arith ha]

theorem parseAddrGo_quadChars {a : Nat} (ha : a < 2 ^ 32) :
    parseAddrGo (quadChars a) = some (AddrParse.v4 a) := by
  have hdot : '.' ∈ quadChars a := by
    unfold quadChars
    exact List.mem_append_right _ (List.mem_cons_self _ _)
  unfold parseAddrGo
  rw [addrKind_digits_dot _ (quadChars_class a) hdot]
  show (parse4Go (quadChars a)).map AddrParse.v4 = some (AddrParse.v4 a)
  rw [parse4Go_quadChars ha]
  rfl

theorem parsePrefixGo_render {a n : Nat} (ha : a < 2 ^ 32) (hn : n ≤ 32) :
    parsePrefixGo (renderPfx4 (a, n)).data = some (PfxParse.v4 a n) := by
  have hn256 : n < 256 := by omega
  have hdata : (renderPfx4 (a, n)).data = quadChars a ++ '/' :: decChars n := rfl
  rw [hdata]
  have hq_noslash : '/' ∉ quadChars a := by
    intro hc
    rcases quadChars_class a '/' hc with h | h
    · exact digit_ne_slash h rfl
    · exact absurd h (by decide)
  have hb_noslash : '/' ∉ decChars n := by
    intro hc
    exact digit_ne_slash (decChars_digit hn256 '/' hc) rfl
  unfold parsePrefixGo
  rw [splitLastSlash_append hq_noslash hb_noslash]
  show (match parseAddrGo (quadChars a) with
    | none => none
    | some ip =>
      if ip = AddrParse.v6 ∧ (splitZone (quadChars a)).2 ≠ none then none
      else if 1 < (decChars n).length ∧ ((decChars n).head? = some '0' ∨
          (decChars n).head? = some '+' ∨ (decChars n).head? = some '-') then
        none
      else
        match atoiGo (decChars n) with
        | none => none
        | some bits =>
          match ip with
          | AddrParse.v4 av =>
            if 0 ≤ bits ∧ bits ≤ 32 then some (PfxParse.v4 av bits.toNat)
            else none
          | AddrParse.v6 =>
            if 0 ≤ bits ∧ bits ≤ 128 then some PfxParse.v6 else none) =
    some (PfxParse.v4 a n)
  rw [parseAddrGo_quadChars ha]
  show (if AddrParse.v4 a = AddrParse.v6 ∧ (splitZone (quadChars a)).2 ≠ none
      then none
    else if 1 < (decChars n).length ∧ ((decChars n).head? = some '0' ∨
        (decChars n).head? = some '+' ∨ (decChars n).head? = some '-') then
      none
    else
      match atoiGo (decChars n) with
      | none => none
      | some bits =>
        if 0 ≤ bits ∧ bits ≤ 32 then some (PfxParse.v4 a bits.toNat)
        else none) = some (PfxParse.v4 a n)
  rw [if_neg (fun hc => AddrParse.noConfusion hc.1),
    if_neg (decChars_guard n (by omega)), atoi_small n (by omega)]
  show (if (0 : Int) ≤ Int.ofNat n ∧ (Int.ofNat n : Int) ≤ 32 then
    some (PfxParse.v4 a (Int.ofNat n).toNat) else none) = some (PfxParse.v4 a n)
  rw [if_pos ⟨Int.ofNat_nonneg n, Int.ofNat_le.mpr hn⟩]
  rfl

theorem renderAll_data : ∀ ps : List (Nat × Nat),
    (renderAll ps).data =
      ps.foldr (fun p acc => (renderPfx4 p).data ++ '\n' :: acc) [] := by
  intro ps
  induction ps with
  | nil => rfl
  | cons p ps' ih =>
    show (renderPfx4 p ++ "\n" ++ renderAll ps').data = _
    rw [String.data_append, String.data_append, ih, List.append_assoc]
    rfl

theorem splitNl_append {u w : List Char} (hu : '\n' ∉ u) :
    splitNl (u ++ '\n' :: w) = u :: splitNl w := by
  induction u with
  | nil =>
    rw [List.nil_append]
    conv_lhs => unfold splitNl
    rw [if_pos rfl]
  | cons c u' ih =>
    rw [List.cons_append]
    conv_lhs => unfold splitNl
    rw [if_neg (fun hc => hu (by rw [hc]; exact List.mem_cons_self _ _)),
      ih (fun hc => hu (List.mem_cons_of_mem c hc))]

theorem splitNl_renderAll : ∀ ps : List (Nat × Nat),
    (∀ p ∈ ps, '\n' ∉ (renderPfx4 p).data) →
    splitNl (renderAll ps).data =
      ps.map (fun p => (renderPfx4 p).data) ++ [[]] := by
  intro ps
  induction ps with
  | nil =>
    intro _
    rfl
  | cons p ps' ih =>
    intro hnl
    rw [renderAll_data]
    show splitNl ((renderPfx4 p).data ++ '\n' ::
      (ps'.foldr (fun p acc => (renderPfx4 p).data ++ '\n' :: acc) [])) = _
    rw [splitNl_append (hnl p (by simp)), ← renderAll_data,
      ih (fun q hq => hnl q (List.mem_cons_of_mem p hq))]
    rfl

theorem dropCR_eq_self {l : List Char} (h : ∀ c ∈ l, ¬ c = '\r') : dropCR l = l := by
  unfold dropCR
  split
  · rename_i heq
    exact absurd rfl (h '\r' (List.mem_of_getLast?_eq_some heq))
  · rfl

theorem dropWhile_false_eq_self {p : Char → Bool} {l : List Char}
    (h : ∀ c ∈ l, p c = false) : l.dropWhile p = l := by
  cases l with
  | nil => rfl
  | cons c rest =>
    rw [List.dropWhile_cons, h c (by simp)]
    simp

theorem trimGo_eq_self {s : String} (h : ∀ c ∈ s.data, isSpaceGo c = false) :
    trimGo s = s := by
  unfold trimGo
  rw [dropWhile_false_eq_self h,
    dropWhile_false_eq_self (fun c hc => h c (List.mem_reverse.mp hc)),
    List.reverse_reverse]

theorem filterMap_congr_some {α β : Type} {g : α → Option β} {h : α → β} :
    ∀ l : List α, (∀ a ∈ l, g a = some (h a)) → l.filterMap g = l.map h := by
  intro l
  induction l with
  | nil =>
    intro _
    rfl
  | cons a l' ih =>
    intro hall
    rw [List.filterMap_cons, hall a (by simp), List.map_cons,
      ih (fun x hx => hall x (List.mem_cons_of_mem a hx))]

theorem filterMap_none_eq_nil {α β : Type} {g : α → Option β} :
    ∀ l : List α, (∀ a ∈ l, g a = none) → l.filterMap g = [] := by
  intro l
  induction l with
  | nil =>
    intro _
    rfl
  | cons a l' ih =>
    intro hall
    rw [List.filterMap_cons, hall a (by simp),
      ih (fun x hx => hall x (List.mem_cons_of_mem a hx))]

theorem renderPfx4_line_chars {a n : Nat} (hn : n < 256) :
    (∀ c ∈ (renderPfx4 (a, n)).data, isSpaceGo c = false) ∧
      (∀ c ∈ (renderPfx4 (a, n)).data, ¬ c = '\r') ∧
      '\n' ∉ (renderPfx4 (a, n)).data := by
  have hcls := renderPfx4_class (a := a) hn
  refine ⟨?_, ?_, ?_⟩
  · intro c hc
    rcases hcls c hc with h | h | h
    · exact digit_not_space h
    · rw [h]
      decide
    · rw [h]
      decide
  · intro c hc
    rcases hcls c hc with h | h | h
    · exact digit_ne_cr h
    · rw [h]
      decide
    · rw [h]
      decide
  · intro hc
    rcases hcls '\n' hc with h | h | h
    · exact digit_ne_nl h rfl
    · exact absurd h (by decide)
    · exact absurd h (by decide)

theorem renderPfx4_ne_empty (a n : Nat) : ¬ renderPfx4 (a, n) = "" := by
  intro h
  have hlen : (quadChars a ++ '/' :: decChars n).length = 0 := by
    rw [show quadChars a ++ '/' :: decChars n = (renderPfx4 (a, n)).data from rfl, h]
    rfl
  rw [List.length_append, List.length_cons] at hlen
  omega

theorem rangeOfPfx4_aligned {a n : Nat} (hal : a % 2 ^ (32 - n) = 0) :
    rangeOfPfx4 a n = blockR (a, n) := by
  unfold rangeOfPfx4 blockR blockEnd
  rw [Nat.div_mul_cancel (Nat.dvd_of_mod_eq_zero hal)]

theorem pickLine_render {a n : Nat} (ha : a < 2 ^ 32) (hn : n ≤ 32)
    (hal : a % 2 ^ (32 - n) = 0) :
    pickLineRange (renderPfx4 (a, n)) = some (blockR (a, n)) ∧
      pickLineDiag (renderPfx4 (a, n)) = none := by
  have htrim : trimGo (renderPfx4 (a, n)) = renderPfx4 (a, n) :=
    trimGo_eq_self (renderPfx4_line_chars (by omega)).1
  have hcond : ¬ ((trimGo (renderPfx4 (a, n)) == "") = true) := by
    intro hh
    exact renderPfx4_ne_empty a n (htrim.symm.trans (eq_of_beq hh))
  constructor
  · unfold pickLineRange
    rw [if_neg hcond, htrim, parsePrefixGo_render ha hn]
    show some (rangeOfPfx4 a n) = some (blockR (a, n))
    rw [rangeOfPfx4_aligned hal]
  · unfold pickLineDiag
    rw [if_neg hcond, htrim, parsePrefixGo_render ha hn]

theorem dropCR_renderPfx4 {a n : Nat} (hn : n < 256) :
    dropCR (renderPfx4 (a, n)).data = (renderPfx4 (a, n)).data :=
  dropCR_eq_self (renderPfx4_line_chars hn).2.1

theorem renderPfx4_len {a n : Nat} (hn : n < 256) :
    (renderPfx4 (a, n)).data.length ≤ 19 := by
  have hdata : (renderPfx4 (a, n)).data = quadChars a ++ '/' :: decChars n := rfl
  rw [hdata, List.length_append, List.length_cons]
  have hq : (quadChars a).length ≤ 15 := by
    unfold quadChars
    rw [List.length_append, List.length_cons, List.length_append,
      List.length_cons, List.length_append, List.length_cons]
    have h1 := decChars_len _ (Nat.mod_lt (a / 2 ^ 24) (show 0 < 256 by norm_num))
    have h2 := decChars_len _ (Nat.mod_lt (a / 2 ^ 16) (show 0 < 256 by norm_num))
    have h3 := decChars_len _ (Nat.mod_lt (a / 2 ^ 8) (show 0 < 256 by norm_num))
    have h4 := decChars_len _ (Nat.mod_lt a (show 0 < 256 by norm_num))
    omega
  have hb := decChars_len n hn
  omega

theorem linesGo_renderAll {ps : List (Nat × Nat)} (hn : ∀ p ∈ ps, p.2 < 256) :
    linesGo (renderAll ps) = ps.map renderPfx4 := by
  have hnl : ∀ p ∈ ps, '\n' ∉ (renderPfx4 p).data := by
    intro p hp
    exact (renderPfx4_line_chars (hn p hp)).2.2
  have hshort : ∀ l ∈ ps.map (fun p => (renderPfx4 p).data), utf8Len l ≤ 65535 := by
    intro l hl
    obtain ⟨p, hp, rfl⟩ := List.mem_map.mp hl
    obtain ⟨a, m⟩ := p
    have h1 := utf8Len_le (renderPfx4 (a, m)).data
    have h2 := renderPfx4_len (a := a) (n := m) (hn (a, m) hp)
    omega
  simp only [linesGo]
  rw [splitNl_renderAll ps hnl, List.getLast?_concat, if_pos rfl,
    List.dropLast_concat, takeScan_all _ hshort, List.map_map, List.map_map]
  apply List.map_congr_left
  intro p hp
  show String.mk (dropCR (renderPfx4 p).data) = renderPfx4 p
  rw [dropCR_renderPfx4 (hn p hp)]

theorem coveredR_map_blockR (ps : List (Nat × Nat)) (x : Nat) :
    coveredR (ps.map blockR) x ↔ coveredB ps x := by
  unfold coveredR coveredB
  constructor
  · rintro ⟨r, hr, hin⟩
    obtain ⟨p, hp, rfl⟩ := List.mem_map.mp hr
    exact ⟨p, hp, hin⟩
  · rintro ⟨p, hp, hin⟩
    exact ⟨blockR p, List.mem_map_of_mem _ hp, hin⟩

theorem roundtrip_ipSet {rs : List (Nat × Nat)}
    (hv : ∀ r ∈ rs, r.1 ≤ r.2) (hb : ∀ r ∈ rs, r.2 < 2 ^ 32) :
    downloadReadySubnets (renderAll (ipSetPrefixes rs)) =
      (ipSetPrefixes rs, []) := by
  have hmem : ∀ p ∈ ipSetPrefixes rs,
      p.2 ≤ 32 ∧ p.1 % 2 ^ (32 - p.2) = 0 ∧ blockEnd p < 2 ^ 32 :=
    fun p hp => ipSetPrefixes_mem hv hb hp
  have ha : ∀ p ∈ ipSetPrefixes rs, p.1 < 2 ^ 32 := by
    intro p hp
    have h1 := (hmem p hp).2.2
    unfold blockEnd at h1
    omega
  have hn256 : ∀ p ∈ ipSetPrefixes rs, p.2 < 256 := by
    intro p hp
    have := (hmem p hp).1
    omega
  rw [downloadReadySubnets_eq (renderAll (ipSetPrefixes rs)),
    linesGo_renderAll hn256]
  have hfm1 : ((ipSetPrefixes rs).map renderPfx4).filterMap pickLineRange
      = (ipSetPrefixes rs).map blockR := by
    rw [List.filterMap_map]
    exact filterMap_congr_some _ (fun p hp =>
      (pickLine_render (ha p hp) (hmem p hp).1 (hmem p hp).2.1).1)
  have hfm2 : ((ipSetPrefixes rs).map renderPfx4).filterMap pickLineDiag
      = [] := by
    rw [List.filterMap_map]
    exact filterMap_none_eq_nil _ (fun p hp =>
      (pickLine_render (ha p hp) (hmem p hp).1 (hmem p hp).2.1).2)
  rw [hfm1, hfm2]
  have hmerge : mergeRanges ((ipSetPrefixes rs).map blockR) = mergeRanges rs := by
    apply mergeRanges_eq_of_canon
    · intro r hr
      obtain ⟨p, hp, rfl⟩ := List.mem_map.mp hr
      show p.1 ≤ blockEnd p
      unfold blockEnd
      omega
    · exact (mergeRanges_canon hv).1
    · exact (mergeRanges_canon hv).2
    · intro x
      rw [coveredR_map_blockR, ipSetPrefixes_cov hv hb, mergeRanges_cov]
  have hset : ipSetPrefixes ((ipSetPrefixes rs).map blockR) = ipSetPrefixes rs := by
    show ((mergeRanges ((ipSetPrefixes rs).map blockR)).map
      (fun r => rangePrefixes r.1 r.2)).flatten = ipSetPrefixes rs
    rw [hmerge]
    rfl
  rw [hset]

set_option maxRecDepth 8192 in
/-- C4 refutation: the scanner's unchecked 64 KiB token limit breaks the
skip-and-continue contract — on an input whose first line is 65536 junk
characters (a malformed, non-IPv4 line) followed by a perfectly valid
line, the run returns NO diagnostic for the junk line and an EMPTY
prefix set: the later valid line, which parses to 1.2.3.4/32, is
silently dropped instead of incorporated. -/
theorem claim_C4_counterexample :
    downloadReadySubnets
        (String.mk (List.replicate 65536 'x' ++ '\n' :: ("1.2.3.4/32").data)) =
      ([], []) ∧
    parsePrefixGo (List.replicate 65536 'x') = none ∧
    parsePrefixGo ("1.2.3.4/32").data = some (PfxParse.v4 16909060 32) := by
  refine ⟨?_, ?_, by decide⟩
  · have hx : '\n' ∉ List.replicate 65536 'x' := by
      intro hc
      exact absurd (List.eq_of_mem_replicate hc) (by decide)
    have hlen : utf8Len (List.replicate 65536 'x') = 65536 := by
      unfold utf8Len
      rw [List.map_replicate, show ('x').utf8Size = 1 from by decide,
        List.sum_replicate]
      simp
    have h1 : splitNl (List.replicate 65536 'x' ++ '\n' :: ("1.2.3.4/32").data)
        = List.replicate 65536 'x' :: [("1.2.3.4/32").data] := by
      rw [splitNl_append hx]
      rw [show splitNl ("1.2.3.4/32").data = [("1.2.3.4/32").data] from by decide]
    have hlines : linesGo (String.mk (List.replicate 65536 'x' ++
        '\n' :: ("1.2.3.4/32").data)) = [] := by
      show ((takeScan (if (splitNl (List.replicate 65536 'x' ++
            '\n' :: ("1.2.3.4/32").data)).getLast? = some []
          then (splitNl (List.replicate 65536 'x' ++
            '\n' :: ("1.2.3.4/32").data)).dropLast
          else splitNl (List.replicate 65536 'x' ++
            '\n' :: ("1.2.3.4/32").data))).map dropCR).map
        (fun l => String.mk l) = []
      rw [h1]
      rw [if_neg (show ¬ ((List.replicate 65536 'x' ::
        [("1.2.3.4/32").data]).getLast? = some []) from by decide)]
      rw [show takeScan (List.replicate 65536 'x' :: [("1.2.3.4/32").data]) =
        [] from by unfold takeScan; rw [if_neg (by rw [hlen]; omega)]]
      rfl
    rw [downloadReadySubnets_eq, hlines]
    decide
  · have hns : '/' ∉ List.replicate 65536 'x' := by
      intro hc
      exact absurd (List.eq_of_mem_replicate hc) (by decide)
    exact parsePrefixGo_no_slash hns

/-- C8: normalization is idempotent under the textual round trip — for
every input (raw ready-list text, or a BGP table with a target AS),
rendering the returned prefix list with `netip.Prefix.String` one per
line (`writeSubnetsToFile`) and feeding that text back through the
ready-list reader returns exactly the same prefix list, with no
diagnostics. -/
theorem claim_C8_roundtrip_idempotent :
    (∀ data : String,
      downloadReadySubnets (renderAll (downloadReadySubnets data).1) =
        ((downloadReadySubnets data).1, [])) ∧
    (∀ (l : List SubnetAS) (t : String),
      downloadReadySubnets (renderAll (processSubnets l t).1) =
        ((processSubnets l t).1, [])) := by
  constructor
  · intro data
    rw [downloadReadySubnets_eq data]
    exact roundtrip_ipSet (picksL_valid (linesGo data)) (picksL_bound (linesGo data))
  · intro l t
    rw [processSubnets_eq l t]
    exact roundtrip_ipSet (picksR_valid l t) (picksR_bound l t)
